import Mathlib

/-!
# HTTP_Server_Architecture, Prototype_One: the request pipeline of `c_http_server.c`

A shallow embedding of the per-connection pipeline of `c_http_server.c`
(`handle_client`, `url_decode`, `get_file_extension`, `get_mime_type`,
`build_http_response`) and theorems about it.

Conventions.

* A byte is a `Nat`; a C string is the `List Nat` of its bytes before the
  terminating zero byte.  A region of memory that is read as a C string is a
  `List Nat` as well, and `cstr` cuts it at its first zero byte.
* The libc functions the program calls (`regexec`, `sscanf`, `strcasecmp`,
  `strrchr`, `strcpy`, `snprintf`, `read`) are modelled after ISO C / POSIX,
  in the "C" locale (the program never calls `setlocale`).
* `malloc` is taken to succeed.
-/

namespace HttpServer

/-! ## Bytes and C strings -/

/-- The bytes of a string literal of the source. -/
def bytes (s : String) : List Nat := s.toList.map Char.toNat

/-- The C string held by a region of memory: its bytes before the first zero byte. -/
def cstr (mem : List Nat) : List Nat := mem.takeWhile (fun c => c != 0)

/-- The constant `BUFFER_SIZE` of the source, 100 MiB. -/
def BUFFER_SIZE : Nat := 104857600

/-! ## The request line: `regcomp(&regex, "^GET /([^ ]*) HTTP/1", REG_EXTENDED)`

The pattern uses three constructs of POSIX extended regular expressions: the
anchor `^` (without `REG_NEWLINE`: the start of the string only), ordinary
characters, and one parenthesised group holding a starred non-matching
bracket expression.  The pattern is kept as data and run by a backtracking
matcher that tries the longest run of the star first. -/

/-- The items that follow the anchor in the pattern. -/
inductive RegexItem where
  /-- An ordinary character: matches itself. -/
  | lit (c : Nat)
  /-- The group `([^c]*)`: a captured run, of any length, of bytes other than `c`
  (without `REG_NEWLINE` a newline is such a byte). -/
  | group_star_not (c : Nat)
  deriving DecidableEq, Repr

/-- The pattern `GET /([^ ]*) HTTP/1` after its anchor. -/
def request_regex : List RegexItem :=
  (bytes "GET /").map RegexItem.lit ++ [RegexItem.group_star_not 32]
    ++ (bytes " HTTP/1").map RegexItem.lit

/-- The star of `[^c]`, at offset `pos` of the subject: the longest run first, then
shorter ones, each followed by the rest of the pattern `k`. -/
def star_not {α : Type} (c : Nat) (k : List Nat → Nat → Option α) :
    List Nat → Nat → Option α
  | [], pos => k [] pos
  | x :: xs, pos =>
    if x ≠ c then
      match star_not c k xs (pos + 1) with
      | some r => some r
      | none => k (x :: xs) pos
    else k (x :: xs) pos

/-- Match the items at offset `pos` of the subject, of which `input` is what is left;
`cap` is the pair `(rm_so, rm_eo)` of the group. -/
def match_here : List RegexItem → List Nat → Nat → Nat × Nat → Option (Nat × Nat)
  | [], _, _, cap => some cap
  | RegexItem.lit c :: items, input, pos, cap =>
    match input with
    | [] => none
    | x :: xs => if x = c then match_here items xs (pos + 1) cap else none
  | RegexItem.group_star_not c :: items, input, pos, _ =>
    star_not c (fun rest pos' => match_here items rest pos' (pos, pos')) input pos

/-- The call `regexec(&regex, buffer, 2, matches, 0) == 0` on the C string `subject`:
`some (rm_so, rm_eo)` of `matches[1]` when it matches.  The anchor: only offset 0 is
tried. -/
def regexec (subject : List Nat) : Option (Nat × Nat) :=
  match_here request_regex subject 0 (0, 0)

/-- The lines
`buffer[matches[1].rm_eo] = '\0'; url_encoded_file_name = buffer + matches[1].rm_so;`:
the C string that `url_encoded_file_name` points to. -/
def url_encoded_file_name (buffer : List Nat) (m : Nat × Nat) : List Nat :=
  cstr ((buffer.set m.2 0).drop m.1)

/-- The request-line match of `handle_client` on the receive buffer: the raw path. -/
def match_request_line (buffer : List Nat) : Option (List Nat) :=
  (regexec (cstr buffer)).map (url_encoded_file_name buffer)

/-- The first line of a request, in the words of the specification: its bytes up to
and including the first line terminator, the byte LF (all of it when there is none). -/
def first_line : List Nat → List Nat
  | [] => []
  | c :: rest => if c = 10 then [c] else c :: first_line rest

/-- The number of bytes of the subject that the pattern can reach: the 5 of `GET /`,
the bytes other than a space that follow them, and the 7 of ` HTTP/1`. -/
def decisive_length (subject : List Nat) : Nat :=
  5 + ((subject.drop 5).takeWhile (fun x => x != 32)).length + 7

/-! ## `url_decode` -/

/-- The function `isspace` in the "C" locale: space, and the bytes 9 to 13. -/
def isspace (c : Nat) : Bool := c == 32 || (9 ≤ c && c ≤ 13)

/-- The value of `c` as a hexadecimal digit, when it is one (`isxdigit`). -/
def hex_digit (c : Nat) : Option Nat :=
  if 48 ≤ c ∧ c ≤ 57 then some (c - 48)
  else if 97 ≤ c ∧ c ≤ 102 then some (c - 87)
  else if 65 ≤ c ∧ c ≤ 70 then some (c - 55)
  else none

/-- The conversion `%2x` once white space has been skipped: an optionally signed
hexadecimal integer of at most two characters, the sign being one of them (ISO C,
7.21.6.2).  The result is the `unsigned int` stored, `none` when nothing is stored:
no character left (input failure), or no digit (matching failure).  The input item
`0x` has no digit after its prefix and is a matching failure in ISO C; glibc stores
0 there. -/
def scan_hex2 : List Nat → Option Nat
  | [] => none
  | c :: rest =>
    if c = 43 ∨ c = 45 then
      match rest with
      | [] => none
      | d :: _ =>
        match hex_digit d with
        | none => none
        | some v => some (if c = 45 then (4294967296 - v) % 4294967296 else v)
    else
      match hex_digit c with
      | none => none
      | some v =>
        match rest with
        | [] => some v
        | d :: _ =>
          if c = 48 ∧ (d = 120 ∨ d = 88) then none
          else
            match hex_digit d with
            | none => some v
            | some w => some (16 * v + w)

/-- The call `sscanf(input, "%2x", &hexadecimal_value)`: the value stored, if any.
The conversion skips leading white space before it counts its two characters. -/
def sscanf_2x (input : List Nat) : Option Nat := scan_hex2 (input.dropWhile isspace)

/-- The `for` loop of `url_decode`, with `fuel` bounding the iterations left.
`uninit i` is the indeterminate content of the local `hexadecimal_value` of the
iteration at index `i`, which is what the program emits when `sscanf` stores
nothing; the assignment to a `char` keeps the low 8 bits. -/
def url_decode_loop (uninit : Nat → Nat) (source : List Nat) :
    Nat → Nat → List Nat → List Nat
  | 0, _, decoded => decoded
  | fuel + 1, i, decoded =>
    if i < source.length then
      if source.getD i 0 = 37 ∧ i + 2 < source.length then
        let hexadecimal_value := (sscanf_2x (source.drop (i + 1))).getD (uninit i)
        url_decode_loop uninit source fuel (i + 2 + 1) (decoded ++ [hexadecimal_value % 256])
      else
        url_decode_loop uninit source fuel (i + 1) (decoded ++ [source.getD i 0])
    else decoded

/-- The function `url_decode(source)`: the `decoded_length` bytes written to `decoded` before the
terminator.  Every iteration advances `i`, so `strlen(source)` iterations are enough.
A caller that reads the result as a C string sees `cstr` of it. -/
def url_decode (uninit : Nat → Nat) (source : List Nat) : List Nat :=
  url_decode_loop uninit source source.length 0 []

/-- The states `(i, decoded)` in which the loop of `url_decode` evaluates its test
`i < string_length`, in order, the last one being the state at exit; `decoded_length`
is the length of `decoded`.  Same steps as `url_decode_loop`. -/
def url_decode_states (uninit : Nat → Nat) (source : List Nat) :
    Nat → Nat → List Nat → List (Nat × List Nat)
  | 0, i, decoded => [(i, decoded)]
  | fuel + 1, i, decoded =>
    (i, decoded) ::
      if i < source.length then
        if source.getD i 0 = 37 ∧ i + 2 < source.length then
          let hexadecimal_value := (sscanf_2x (source.drop (i + 1))).getD (uninit i)
          url_decode_states uninit source fuel (i + 2 + 1)
            (decoded ++ [hexadecimal_value % 256])
        else
          url_decode_states uninit source fuel (i + 1) (decoded ++ [source.getD i 0])
      else []

/-- The loop of `url_decode` as a recursion on what is left of `source` at index `off`:
the test `i + 2 < string_length` holds exactly when three bytes or more are left. -/
def decode_from (uninit : Nat → Nat) : Nat → List Nat → List Nat
  | _, [] => []
  | off, c :: a :: b :: rest =>
    if c = 37 then
      (sscanf_2x (a :: b :: rest)).getD (uninit off) % 256 :: decode_from uninit (off + 3) rest
    else c :: decode_from uninit (off + 1) (a :: b :: rest)
  | off, c :: rest => c :: decode_from uninit (off + 1) rest

/-- The value of the two bytes `a`, `b` read as a two-digit hexadecimal number (a byte
that is no hexadecimal digit counts as 0). -/
def two_digit_hex (a b : Nat) : Nat := 16 * (hex_digit a).getD 0 + (hex_digit b).getD 0

/-- The reference decoder, in the words of the specification: scan left to right; at
a `%` with `i + 2 < length` (three bytes or more are left) emit the value `hex2` gives
to the next two bytes and advance by 3; otherwise emit the byte and advance by 1. -/
def reference_decode (hex2 : Nat → Nat → Nat) : List Nat → List Nat
  | [] => []
  | c :: a :: b :: rest =>
    if c = 37 then hex2 a b :: reference_decode hex2 rest
    else c :: reference_decode hex2 (a :: b :: rest)
  | c :: rest => c :: reference_decode hex2 rest

/-- Every escape that the left-to-right scan decodes (a `%` met with `i + 2 < length`)
is followed by two hexadecimal digits. -/
def escapes_are_hex : List Nat → Bool
  | [] => true
  | c :: a :: b :: rest =>
    if c = 37 then (hex_digit a).isSome && (hex_digit b).isSome && escapes_are_hex rest
    else escapes_are_hex (a :: b :: rest)
  | _ :: rest => escapes_are_hex rest

/-- Some `%` of the string is followed by two hexadecimal digits: a `%XX` sequence. -/
def contains_hex_escape : List Nat → Bool
  | c :: a :: b :: rest =>
    (c == 37 && (hex_digit a).isSome && (hex_digit b).isSome)
      || contains_hex_escape (a :: b :: rest)
  | _ => false

/-- Some `%` of the string is followed by two more bytes, whatever they are. -/
def percent_before_two : List Nat → Bool
  | c :: a :: b :: rest => c == 37 || percent_before_two (a :: b :: rest)
  | _ => false

/-! ## `get_file_extension` and `get_mime_type` -/

/-- The call `strrchr(s, c)`: the index of the last occurrence of `c` in `s`, if any. -/
def strrchr (s : List Nat) (c : Nat) : Option Nat :=
  match s with
  | [] => none
  | x :: xs =>
    match strrchr xs c with
    | some j => some (j + 1)
    | none => if x = c then some 0 else none

/-- The function `get_file_extension(file_name)`: what follows the last dot, and
nothing when there is no dot or the last dot is the first byte. -/
def get_file_extension (file_name : List Nat) : List Nat :=
  match strrchr file_name 46 with
  | none => []
  | some 0 => []
  | some (dot + 1) => file_name.drop (dot + 1 + 1)

/-- The function `tolower` in the "C" locale. -/
def tolower (c : Nat) : Nat := if 65 ≤ c ∧ c ≤ 90 then c + 32 else c

/-- The call `strcasecmp(a, b)` on C strings: the difference of the first bytes that differ
after `tolower`, the terminator being 0. -/
def strcasecmp : List Nat → List Nat → Int
  | [], [] => 0
  | [], y :: _ => 0 - (tolower y : Int)
  | x :: _, [] => (tolower x : Int) - 0
  | x :: xs, y :: ys =>
    if tolower x = tolower y then strcasecmp xs ys else (tolower x : Int) - (tolower y : Int)

/-- The function `case_insensitive_compare(string_one, string_two)` on C strings: the
loop runs while both strings have a byte left, and the final comparison is between
the bytes at which it stopped, the terminator being 0. -/
def case_insensitive_compare : List Nat → List Nat → Bool
  | x :: xs, y :: ys =>
    if tolower x ≠ tolower y then false else case_insensitive_compare xs ys
  | string_one, string_two => string_one.headD 0 == string_two.headD 0

/-- The function `get_mime_type(file_extension)`. -/
def get_mime_type (file_extension : List Nat) : List Nat :=
  if strcasecmp file_extension (bytes "html") = 0 ∨
      strcasecmp file_extension (bytes "htm") = 0 then
    bytes "text/html"
  else if strcasecmp file_extension (bytes "txt") = 0 then
    bytes "text/plain"
  else if strcasecmp file_extension (bytes "jpg") = 0 ∨
      strcasecmp file_extension (bytes "jpeg") = 0 then
    bytes "image/jpeg"
  else if strcasecmp file_extension (bytes "png") = 0 then
    bytes "image/png"
  else
    bytes "application/octet-stream"

/-- Equality of two strings ignoring ASCII case: the same bytes once every capital
letter is replaced by its small letter. -/
def eq_ignore_case (a b : List Nat) : Prop := a.map tolower = b.map tolower

instance (a b : List Nat) : Decidable (eq_ignore_case a b) :=
  inferInstanceAs (Decidable (a.map tolower = b.map tolower))

/-! ## `build_http_response` -/

/-- The file system as `open(file_name, O_RDONLY)` sees it: `none` when the call
returns -1, else the bytes that the calls of `read` on the descriptor deliver before
one returns 0 or -1 (none at all for a directory, whose `read` fails at once). -/
abbrev FileSystem := List Nat → Option (List Nat)

/-- The call `snprintf(dst, size, ...)` with the formatted text `s`: at most `size - 1` bytes
are stored before the terminator. -/
def snprintf (size : Nat) (s : List Nat) : List Nat := s.take (size - 1)

/-- The count `read(fd, buf, count)` returns with `remaining` bytes left in the file,
when one call delivers at most `chunk` bytes. -/
def read_count (chunk remaining count : Nat) : Nat := min count (min chunk remaining)

/-- The `while ((bytes_read = read(...)) > 0)` loop of `build_http_response`, with
`fuel` bounding the iterations left: `file` is what is left of the file, and each
`read` stores its bytes at `response + *response_length`. -/
def read_loop (chunk : Nat) : Nat → List Nat → List Nat × Nat → List Nat × Nat
  | 0, _, st => st
  | fuel + 1, file, (response, response_length) =>
    let bytes_read := read_count chunk file.length (BUFFER_SIZE - response_length)
    if bytes_read > 0 then
      read_loop chunk fuel (file.drop bytes_read)
        (response.take response_length ++ file.take bytes_read, response_length + bytes_read)
    else (response, response_length)

/-- The function `build_http_response(file_name, file_extension, response, &response_length)`:
the bytes stored in `response` and the final `*response_length`.  Every iteration of
the read loop but the last consumes a byte of the file, so `length + 1` iterations are
enough. -/
def build_http_response (fs : FileSystem) (chunk : Nat)
    (file_name file_extension : List Nat) : List Nat × Nat :=
  let mime_type := get_mime_type file_extension
  let header := snprintf BUFFER_SIZE
    (bytes "HTTP/1.1 200 OK\r\nContent-Type: " ++ mime_type ++ bytes "\r\n\r\n")
  match fs file_name with
  | none =>
    let response := snprintf BUFFER_SIZE
      (bytes "HTTP/1.1 404 Not Found\r\nContent-Type: text/plain\r\n\r\n404 Not Found")
    (response, response.length)
  | some file =>
    read_loop chunk (file.length + 1) file (header, 0 + header.length)

/-! ## `handle_client` -/

/-- What `handle_client` does to its socket. -/
inductive Event where
  /-- The call `send(client_fd, response, response_length, 0)` with these bytes. -/
  | send (data : List Nat)
  /-- The call `close(client_fd)`. -/
  | close
  deriving DecidableEq, Repr

/-- The call `strcpy(dst, src)` into an array of `size` bytes: `none` when the string and its
terminator do not fit (the copy runs past the array: undefined behaviour). -/
def strcpy (size : Nat) (src : List Nat) : Option (List Nat) :=
  if src.length + 1 ≤ size then some src else none

/-- The function `handle_client`: `recv_result` is what `recv` returned and `buffer` the content of
the receive buffer after the call.  The result is the calls made on the socket, in
order; `none` is undefined behaviour.  `bytes_received` is a `size_t`, of 64 bits:
the value of `recv` is converted modulo `2 ^ 64` before the test `> 0`. -/
def handle_client (fs : FileSystem) (chunk : Nat) (uninit : Nat → Nat)
    (recv_result : Int) (buffer : List Nat) : Option (List Event) :=
  let bytes_received : Nat := (recv_result % 18446744073709551616).toNat
  if bytes_received > 0 then
    match regexec (cstr buffer) with
    | some m =>
      let file_name := cstr (url_decode uninit (url_encoded_file_name buffer m))
      match strcpy 32 (get_file_extension file_name) with
      | none => none
      | some file_extension =>
        let r := build_http_response fs chunk file_name file_extension
        some [Event.send (r.1.take r.2), Event.close]
    | none => some [Event.close]
  else some [Event.close]


/-! ## Sample inputs -/

/-- A file system with one file, `index.html`. -/
def sample_fs : FileSystem := fun file_name =>
  if file_name = bytes "index.html" then some (bytes "<h1>It works</h1>\n") else none

/-- A request whose path has an extension of 32 bytes. -/
def long_extension_request : List Nat :=
  bytes "GET /a.aaaaaaaaaaaaaaaaaaaaaaaaaaaaaaaa HTTP/1.1\r\n\r\n"

/-- A file system in which every name opens a file of `BUFFER_SIZE + 1` bytes. -/
def huge_fs : FileSystem := fun _ => some (List.replicate (BUFFER_SIZE + 1) 120)

/-- A request for `index.html` as it stands in the receive buffer. -/
def index_request : List Nat := bytes "GET /index.html HTTP/1.1\r\n\r\n"

/-- A request whose path has an extension of 31 bytes. -/
def fitting_extension_request : List Nat :=
  bytes "GET /a.aaaaaaaaaaaaaaaaaaaaaaaaaaaaaaa HTTP/1.1\r\n\r\n"

/-! ## The request line (C1) -/

theorem match_here_lits (lits : List Nat) (items : List RegexItem) (rest : List Nat)
    (pos : Nat) (cap : Nat × Nat) :
    match_here (lits.map RegexItem.lit ++ items) (lits ++ rest) pos cap
      = match_here items rest (pos + lits.length) cap := by
  induction lits generalizing pos with
  | nil => simp
  | cons l ls ih =>
    have e : pos + (ls.length + 1) = pos + 1 + ls.length := by omega
    simp only [List.map_cons, List.cons_append, match_here, if_true, List.length_cons, e]
    exact ih (pos + 1)

theorem match_here_lits_some (lits : List Nat) (items : List RegexItem) (input : List Nat)
    (pos : Nat) (cap r : Nat × Nat)
    (h : match_here (lits.map RegexItem.lit ++ items) input pos cap = some r) :
    ∃ rest, input = lits ++ rest := by
  induction lits generalizing input pos with
  | nil => exact ⟨input, rfl⟩
  | cons l ls ih =>
    cases input with
    | nil => simp [match_here] at h
    | cons x xs =>
      simp only [List.map_cons, List.cons_append, match_here] at h
      by_cases hx : x = l
      · rw [if_pos hx] at h
        obtain ⟨rest, hrest⟩ := ih xs (pos + 1) h
        exact ⟨rest, by rw [hx, hrest]; rfl⟩
      · rw [if_neg hx] at h
        exact absurd h (by simp)

theorem star_not_eq {α : Type} (c : Nat) (k : List Nat → Nat → Option α)
    (hk : ∀ x xs pos, x ≠ c → k (x :: xs) pos = none) (input : List Nat) (pos : Nat) :
    star_not c k input pos
      = k (input.dropWhile (fun x => x != c)) (pos + (input.takeWhile (fun x => x != c)).length) := by
  induction input generalizing pos with
  | nil => simp [star_not]
  | cons x xs ih =>
    by_cases hx : x = c
    · simp [star_not, hx]
    · simp only [star_not, ne_eq, hx, not_false_eq_true, if_true, ih, hk x xs pos hx]
      have : (x != c) = true := by simp [hx]
      simp only [List.dropWhile_cons, List.takeWhile_cons, this, if_true, List.length_cons]
      have e : pos + 1 + (List.takeWhile (fun x => x != c) xs).length
          = pos + ((List.takeWhile (fun x => x != c) xs).length + 1) := by omega
      rw [e]
      cases k (List.dropWhile (fun x => x != c) xs)
        (pos + ((List.takeWhile (fun x => x != c) xs).length + 1)) <;> rfl

theorem bytes_GET : bytes "GET /" = [71, 69, 84, 32, 47] := by decide

theorem bytes_HTTP : bytes " HTTP/1" = [32, 72, 84, 84, 80, 47, 49] := by decide

theorem takeWhile_not_mem (c : Nat) (p rest : List Nat) (hp : c ∉ p) :
    (p ++ c :: rest).takeWhile (fun x => x != c) = p
      ∧ (p ++ c :: rest).dropWhile (fun x => x != c) = c :: rest := by
  induction p with
  | nil => simp
  | cons x xs ih =>
    have hx : x ≠ c := fun h => hp (by simp [h])
    have hxs : c ∉ xs := fun h => hp (by simp [h])
    simp [hx, ih hxs]

theorem not_mem_takeWhile (c : Nat) (l : List Nat) :
    c ∉ l.takeWhile (fun x => x != c) := by
  intro h
  have := List.mem_takeWhile_imp h
  simp at this

/-- The matcher on the pattern of the source: it matches exactly the subjects
`"GET /" ++ p ++ " HTTP/1" ++ rest` with no space in `p`, and the group is `p`. -/
theorem regexec_eq_some_iff (b : List Nat) (m : Nat × Nat) :
    regexec b = some m ↔
      ∃ p rest, 32 ∉ p ∧ b = bytes "GET /" ++ p ++ bytes " HTTP/1" ++ rest
        ∧ m = (5, 5 + p.length) := by
  have hk : ∀ (x : Nat) (xs : List Nat) (pos : Nat), x ≠ 32 →
      (fun rest pos' => match_here ((bytes " HTTP/1").map RegexItem.lit) rest pos' (5, pos'))
        (x :: xs) pos = none := by
    intro x xs pos hx
    simp [bytes_HTTP, match_here, hx]
  have hstep : ∀ r1 : List Nat,
      match_here request_regex (bytes "GET /" ++ r1) 0 (0, 0)
        = match_here ((bytes " HTTP/1").map RegexItem.lit ++ [])
            (r1.dropWhile (fun x => x != 32))
            (5 + (r1.takeWhile (fun x => x != 32)).length)
            (5, 5 + (r1.takeWhile (fun x => x != 32)).length) := by
    intro r1
    unfold request_regex
    rw [List.append_assoc, match_here_lits]
    simp only [List.singleton_append, match_here]
    rw [star_not_eq 32 _ hk]
    simp [bytes_GET]
  constructor
  · intro h
    unfold regexec at h
    have h1 : ∃ r1, b = bytes "GET /" ++ r1 := by
      unfold request_regex at h
      rw [List.append_assoc] at h
      exact match_here_lits_some _ _ _ _ _ _ h
    obtain ⟨r1, rfl⟩ := h1
    rw [hstep] at h
    obtain ⟨rest, hrest⟩ := match_here_lits_some _ _ _ _ _ _ h
    rw [hrest, match_here_lits] at h
    simp only [match_here, Option.some.injEq] at h
    refine ⟨r1.takeWhile (fun x => x != 32), rest, not_mem_takeWhile 32 r1, ?_, h.symm⟩
    rw [List.append_assoc, List.append_assoc, ← hrest, List.takeWhile_append_dropWhile]
  · rintro ⟨p, rest, hp, rfl, rfl⟩
    unfold regexec
    rw [List.append_assoc, List.append_assoc, hstep]
    have hsplit := takeWhile_not_mem 32 p ([72, 84, 84, 80, 47, 49] ++ rest) hp
    have e : p ++ (bytes " HTTP/1" ++ rest) = p ++ 32 :: ([72, 84, 84, 80, 47, 49] ++ rest) := by
      simp [bytes_HTTP]
    rw [e, hsplit.1, hsplit.2]
    have e2 : 32 :: ([72, 84, 84, 80, 47, 49] ++ rest) = bytes " HTTP/1" ++ rest := by
      simp [bytes_HTTP]
    rw [e2, match_here_lits]
    simp [match_here]

theorem set_at_length (pre post : List Nat) (x y : Nat) :
    (pre ++ x :: post).set pre.length y = pre ++ y :: post := by
  induction pre with
  | nil => rfl
  | cons a as ih => simp [List.set, ih]

theorem url_encoded_file_name_eq (buffer p rest : List Nat)
    (h : cstr buffer = bytes "GET /" ++ p ++ bytes " HTTP/1" ++ rest) :
    url_encoded_file_name buffer (5, 5 + p.length) = p := by
  have h0 : 0 ∉ cstr buffer := not_mem_takeWhile 0 buffer
  have hp : 0 ∉ p := by
    intro hmem
    apply h0
    rw [h]
    simp [hmem]
  obtain ⟨tail, htail⟩ : ∃ tail, buffer = cstr buffer ++ tail :=
    ⟨_, (List.takeWhile_append_dropWhile (fun c => c != 0) buffer).symm⟩
  have hb : buffer = (bytes "GET /" ++ p) ++ 32 :: ([72, 84, 84, 80, 47, 49] ++ rest ++ tail) := by
    rw [htail, h]
    simp [bytes_HTTP]
  have hlen : 5 + p.length = (bytes "GET /" ++ p).length := by
    simp [bytes_GET]
    omega
  have hd : ((bytes "GET /" ++ p) ++ 0 :: ([72, 84, 84, 80, 47, 49] ++ rest ++ tail)).drop 5
      = p ++ 0 :: ([72, 84, 84, 80, 47, 49] ++ rest ++ tail) := by
    simp [bytes_GET]
  unfold url_encoded_file_name
  simp only
  rw [hb, hlen, set_at_length, hd]
  exact (takeWhile_not_mem 0 p _ hp).1

/-- C1: the request-line match of `handle_client` succeeds on a receive buffer, with
raw path `p`, exactly when the C string in the buffer is
`"GET /" ++ p ++ " HTTP/1" ++ rest` for a `p` without a space byte; the path is
captured undecoded and may be empty. -/
theorem match_request_line_iff (buffer p : List Nat) :
    match_request_line buffer = some p ↔
      (32 ∉ p ∧ ∃ rest, cstr buffer = bytes "GET /" ++ p ++ bytes " HTTP/1" ++ rest) := by
  unfold match_request_line
  constructor
  · intro h
    cases hm : regexec (cstr buffer) with
    | none => simp [hm] at h
    | some m =>
      obtain ⟨q, rest, hq, hb, rfl⟩ := (regexec_eq_some_iff _ _).mp hm
      rw [hm, Option.map_some', url_encoded_file_name_eq buffer q rest hb] at h
      have : q = p := by simpa using h
      subst this
      exact ⟨hq, rest, hb⟩
  · rintro ⟨hp, rest, hb⟩
    have hm : regexec (cstr buffer) = some (5, 5 + p.length) :=
      (regexec_eq_some_iff _ _).mpr ⟨p, rest, hp, hb, rfl⟩
    rw [hm, Option.map_some', url_encoded_file_name_eq buffer p rest hb]

/-! ## `url_decode` (C2, C8, C9, C10) -/

theorem url_decode_loop_eq (uninit : Nat → Nat) (source : List Nat) (fuel i : Nat)
    (decoded : List Nat) (hfuel : source.length ≤ i + fuel) :
    url_decode_loop uninit source fuel i decoded
      = decoded ++ decode_from uninit i (source.drop i) := by
  induction fuel generalizing i decoded with
  | zero =>
    have : source.drop i = [] := List.drop_eq_nil_of_le (by omega)
    simp [url_decode_loop, this, decode_from]
  | succ fuel ih =>
    unfold url_decode_loop
    by_cases hi : i < source.length
    · have hc : source.drop i = source.getD i 0 :: source.drop (i + 1) := by
        rw [List.getD_eq_getElem _ _ hi]
        exact List.drop_eq_getElem_cons hi
      rw [if_pos hi]
      generalize source.getD i 0 = c at hc ⊢
      by_cases h2 : i + 2 < source.length
      · have ha : source.drop (i + 1) = source[i + 1] :: source.drop (i + 1 + 1) :=
          List.drop_eq_getElem_cons (by omega)
        have hb : source.drop (i + 1 + 1) = source[i + 2] :: source.drop (i + 2 + 1) :=
          List.drop_eq_getElem_cons (by omega)
        by_cases h37 : c = 37
        · rw [if_pos ⟨h37, h2⟩, ih _ _ (by omega), hc, h37, ha, hb]
          simp [decode_from]
        · rw [if_neg (fun h => h37 h.1), ih _ _ (by omega), hc, ha, hb]
          simp [decode_from, h37]
      · rw [if_neg (fun h => h2 h.2), ih _ _ (by omega), hc]
        have hshort : (source.drop (i + 1)).length < 2 := by
          rw [List.length_drop]
          omega
        have hno : ∀ (a b : Nat) (rest : List Nat), source.drop (i + 1) = a :: b :: rest → False := by
          intro a b rest h
          rw [h] at hshort
          simp at hshort
          omega
        rw [decode_from.eq_3 uninit i _ _ hno]
        simp
    · have : source.drop i = [] := List.drop_eq_nil_of_le (by omega)
      simp [hi, this, decode_from]

/-- The loop of `url_decode` runs to its end within its fuel: the result is the
left-to-right scan of all of `source`. -/
theorem url_decode_eq (uninit : Nat → Nat) (source : List Nat) :
    url_decode uninit source = decode_from uninit 0 source := by
  unfold url_decode
  rw [url_decode_loop_eq uninit source source.length 0 [] (by omega)]
  simp

theorem hex_digit_some (c v : Nat) (h : hex_digit c = some v) :
    v < 16 ∧ c ≠ 43 ∧ c ≠ 45 ∧ c ≠ 120 ∧ c ≠ 88 ∧ isspace c = false := by
  unfold hex_digit at h
  unfold isspace
  split_ifs at h with h1 h2 h3 <;> simp at h <;> subst h <;>
    refine ⟨by omega, by omega, by omega, by omega, by omega, ?_⟩ <;>
    simp <;> omega

theorem sscanf_2x_hex (a b va vb : Nat) (rest : List Nat)
    (ha : hex_digit a = some va) (hb : hex_digit b = some vb) :
    sscanf_2x (a :: b :: rest) = some (16 * va + vb) := by
  obtain ⟨_, ha1, ha2, _, _, ha3⟩ := hex_digit_some a va ha
  obtain ⟨_, _, _, hb1, hb2, _⟩ := hex_digit_some b vb hb
  simp [sscanf_2x, List.dropWhile, ha3, scan_hex2, ha1, ha2, ha, hb, hb1, hb2]

theorem decode_from_eq_reference (uninit : Nat → Nat) (s : List Nat) (off : Nat)
    (h : escapes_are_hex s = true) :
    decode_from uninit off s = reference_decode two_digit_hex s := by
  induction s using reference_decode.induct two_digit_hex generalizing off with
  | case1 => simp [decode_from, reference_decode]
  | case2 a b rest ih =>
    simp only [escapes_are_hex, if_true, Bool.and_eq_true, Option.isSome_iff_exists] at h
    obtain ⟨⟨⟨va, ha⟩, ⟨vb, hb⟩⟩, hrest⟩ := h
    obtain ⟨hva, _⟩ := hex_digit_some a va ha
    obtain ⟨hvb, _⟩ := hex_digit_some b vb hb
    simp only [decode_from, reference_decode, if_true, sscanf_2x_hex a b va vb rest ha hb,
      Option.getD_some, ih (off + 3) hrest, two_digit_hex, ha, hb]
    congr 1
    omega
  | case3 c a b rest hc ih =>
    simp only [escapes_are_hex, hc, if_false] at h
    simp only [decode_from, reference_decode, hc, if_false, ih (off + 1) h]
  | case4 c rest hno ih =>
    rw [escapes_are_hex.eq_3 _ _ hno] at h
    rw [decode_from.eq_3 _ _ _ _ hno, reference_decode.eq_3 _ _ _ hno, ih (off + 1) h]

/-- Well-formed escapes: on every byte string in which each `%` that the scan meets
with `i + 2 < length` is followed by two hexadecimal digits, `url_decode` equals the
left-to-right reference decoder, which emits the byte `16 * X + Y` for `%XY` and
advances by 3, and copies every other byte; in particular
`url_decode("a%20b") = "a b"`. -/
theorem url_decode_eq_reference (uninit : Nat → Nat) (s : List Nat)
    (h : escapes_are_hex s = true) :
    url_decode uninit s = reference_decode two_digit_hex s
      ∧ url_decode uninit (bytes "a%20b") = bytes "a b" := by
  refine ⟨?_, ?_⟩
  · rw [url_decode_eq]
    exact decode_from_eq_reference uninit s 0 h
  · rw [url_decode_eq, decode_from_eq_reference uninit _ 0 (by decide)]
    decide

theorem url_decode_eq_reference_witness :
    escapes_are_hex (bytes "/a%20b%2Fc%") = true
      ∧ (url_decode (fun _ => 0) (bytes "/a%20b%2Fc%")
          = reference_decode two_digit_hex (bytes "/a%20b%2Fc%")
        ∧ url_decode (fun _ => 0) (bytes "a%20b") = bytes "a b") :=
  ⟨by decide, url_decode_eq_reference (fun _ => 0) (bytes "/a%20b%2Fc%") (by decide)⟩

/-- The conversion `%2x` skips white space before it counts its two characters, so
after `%` and a tab the byte emitted comes from `s[i+2]` and `s[i+3]`.  No reading
`hex2` of the two bytes `s[i+1]`, `s[i+2]` as a number makes the reference decoder
agree with `url_decode` on both `"%\t41"` and `"%\t42"`. -/
theorem url_decode_ne_reference :
    url_decode (fun _ => 0) (bytes "%\t41") = bytes "A1"
      ∧ url_decode (fun _ => 0) (bytes "%\t42") = bytes "B2"
      ∧ url_decode (fun _ => 0) (bytes "%\t41") ≠ reference_decode two_digit_hex (bytes "%\t41")
      ∧ ∀ hex2 : Nat → Nat → Nat,
          ¬ (url_decode (fun _ => 0) (bytes "%\t41") = reference_decode hex2 (bytes "%\t41")
            ∧ url_decode (fun _ => 0) (bytes "%\t42") = reference_decode hex2 (bytes "%\t42")) := by
  refine ⟨by decide, by decide, by decide, ?_⟩
  rintro hex2 ⟨h1, h2⟩
  have e1 : url_decode (fun _ => 0) (bytes "%\t41") = [65, 49] := by decide
  have e2 : url_decode (fun _ => 0) (bytes "%\t42") = [66, 50] := by decide
  have r1 : reference_decode hex2 (bytes "%\t41") = [hex2 9 52, 49] := rfl
  have r2 : reference_decode hex2 (bytes "%\t42") = [hex2 9 52, 50] := rfl
  rw [e1, r1] at h1
  rw [e2, r2] at h2
  simp at h1 h2
  omega

theorem decode_from_cons_ne (uninit : Nat → Nat) (off c : Nat) (l : List Nat) (hc : c ≠ 37) :
    decode_from uninit off (c :: l) = c :: decode_from uninit (off + 1) l := by
  match l with
  | [] => simp [decode_from]
  | [a] => simp [decode_from]
  | a :: b :: rest => simp [decode_from, hc]

theorem decode_from_short (uninit : Nat → Nat) (off : Nat) (l : List Nat) (hl : l.length < 3) :
    decode_from uninit off l = l := by
  match l with
  | [] => simp [decode_from]
  | [a] => simp [decode_from]
  | [a, b] => simp [decode_from]
  | a :: b :: c :: rest => simp at hl; omega

theorem decode_from_append_short (uninit : Nat → Nat) (off : Nat) (s t : List Nat)
    (hs : 37 ∉ s) (ht : t.length < 3) :
    decode_from uninit off (s ++ t) = s ++ t := by
  induction s generalizing off with
  | nil => simpa using decode_from_short uninit off t ht
  | cons x xs ih =>
    have hx : x ≠ 37 := fun h => hs (by simp [h])
    have hxs : 37 ∉ xs := fun h => hs (by simp [h])
    rw [List.cons_append, decode_from_cons_ne uninit off x _ hx, ih (off + 1) hxs]

theorem decode_from_append_escape (uninit : Nat → Nat) (off : Nat) (s : List Nat)
    (a b : Nat) (rest : List Nat) (hs : 37 ∉ s) :
    decode_from uninit off (s ++ 37 :: a :: b :: rest)
      = s ++ (sscanf_2x (a :: b :: rest)).getD (uninit (off + s.length)) % 256
          :: decode_from uninit (off + s.length + 3) rest := by
  induction s generalizing off with
  | nil => simp [decode_from]
  | cons x xs ih =>
    have hx : x ≠ 37 := fun h => hs (by simp [h])
    have hxs : 37 ∉ xs := fun h => hs (by simp [h])
    rw [List.cons_append, decode_from_cons_ne uninit off x _ hx, ih (off + 1) hxs]
    have e : off + 1 + xs.length = off + (x :: xs).length := by simp; omega
    rw [e]
    rfl

/-- C8: a trailing incomplete escape is copied literally: for every `s` without `%`
and every byte `c`, `url_decode(s ++ "%") = s ++ "%"` and
`url_decode(s ++ "%" ++ [c]) = s ++ "%" ++ [c]`; in particular
`url_decode("abc%") = "abc%"` and `url_decode("abc%2") = "abc%2"`. -/
theorem url_decode_trailing_escape (uninit : Nat → Nat) (s : List Nat) (c : Nat)
    (hs : 37 ∉ s) :
    url_decode uninit (s ++ bytes "%") = s ++ bytes "%"
      ∧ url_decode uninit (s ++ bytes "%" ++ [c]) = s ++ bytes "%" ++ [c]
      ∧ url_decode uninit (bytes "abc%") = bytes "abc%"
      ∧ url_decode uninit (bytes "abc%2") = bytes "abc%2" := by
  have hpc : bytes "%" = [37] := by decide
  have habc : (37 : Nat) ∉ bytes "abc" := by decide
  refine ⟨?_, ?_, ?_, ?_⟩
  · rw [url_decode_eq, hpc]
    exact decode_from_append_short uninit 0 s [37] hs (by simp)
  · rw [url_decode_eq, hpc, List.append_assoc]
    exact decode_from_append_short uninit 0 s ([37] ++ [c]) hs (by simp)
  · rw [url_decode_eq]
    exact decode_from_append_short uninit 0 (bytes "abc") [37] habc (by simp)
  · rw [url_decode_eq]
    exact decode_from_append_short uninit 0 (bytes "abc") [37, 50] habc (by simp)

theorem url_decode_trailing_escape_witness :
    37 ∉ bytes "dir/file" ∧
      (url_decode (fun _ => 7) (bytes "dir/file" ++ bytes "%") = bytes "dir/file" ++ bytes "%"
        ∧ url_decode (fun _ => 7) (bytes "dir/file" ++ bytes "%" ++ [65])
            = bytes "dir/file" ++ bytes "%" ++ [65]
        ∧ url_decode (fun _ => 7) (bytes "abc%") = bytes "abc%"
        ∧ url_decode (fun _ => 7) (bytes "abc%2") = bytes "abc%2") :=
  ⟨by decide, url_decode_trailing_escape (fun _ => 7) (bytes "dir/file") 65 (by decide)⟩

/-- C9, as stated, fails: in `"a%20"` the last byte of the escape is the last byte of
the string, and the escape is decoded, not copied: the test is `i + 2 < length`,
which holds there.  And a `%` in the last two bytes is not copied when an earlier
escape has consumed it: `"%4%"` decodes to the one byte 4. -/
theorem url_decode_decodes_escape_touching_end :
    url_decode (fun _ => 0) (bytes "a%20") = bytes "a "
      ∧ url_decode (fun _ => 0) (bytes "a%20") ≠ bytes "a%20"
      ∧ url_decode (fun _ => 0) (bytes "%4%") = [4] := by
  decide

theorem decode_from_no_escape (uninit : Nat → Nat) (off : Nat) (s : List Nat)
    (h : percent_before_two s = false) :
    decode_from uninit off s = s := by
  induction s generalizing off with
  | nil => simp [decode_from]
  | cons c l ih =>
    match l, h, ih with
    | [], _, _ => simp [decode_from]
    | [a], _, _ => simp [decode_from]
    | a :: b :: rest, h, ih =>
      simp only [percent_before_two, Bool.or_eq_false_iff, beq_eq_false_iff_ne] at h
      rw [decode_from_cons_ne uninit off c _ h.1, ih (off + 1) h.2]

/-- Nothing to decode: on every string in which no `%` is followed by two more bytes
`url_decode` changes nothing, so that decoding it twice is decoding it once. -/
theorem url_decode_idempotent (uninit uninit2 : Nat → Nat) (s : List Nat)
    (h : percent_before_two s = false) :
    url_decode uninit s = s
      ∧ url_decode uninit2 (url_decode uninit s) = url_decode uninit s := by
  have e : ∀ u : Nat → Nat, url_decode u s = s := by
    intro u
    rw [url_decode_eq]
    exact decode_from_no_escape u 0 s h
  rw [e uninit, e uninit2]
  exact ⟨rfl, rfl⟩

theorem url_decode_idempotent_witness :
    percent_before_two (bytes "a b.txt%2") = false
      ∧ (url_decode (fun _ => 0) (bytes "a b.txt%2") = bytes "a b.txt%2"
        ∧ url_decode (fun _ => 1) (url_decode (fun _ => 0) (bytes "a b.txt%2"))
            = url_decode (fun _ => 0) (bytes "a b.txt%2")) :=
  ⟨by decide, url_decode_idempotent (fun _ => 0) (fun _ => 1) (bytes "a b.txt%2") (by decide)⟩

/-- C10 fails at `"%\t2541"`, a string without a `%` followed by two hexadecimal
digits: `url_decode` treats `%`, tab, `2` as an escape all the same, `sscanf` skips the
tab and reads `25`, and the result `"%541"` differs from the input and decodes again,
to `"T1"`. -/
theorem url_decode_not_idempotent :
    contains_hex_escape (bytes "%\t2541") = false
      ∧ url_decode (fun _ => 0) (bytes "%\t2541") = bytes "%541"
      ∧ url_decode (fun _ => 0) (bytes "%\t2541") ≠ bytes "%\t2541"
      ∧ url_decode (fun _ => 0) (url_decode (fun _ => 0) (bytes "%\t2541")) = bytes "T1"
      ∧ url_decode (fun _ => 0) (url_decode (fun _ => 0) (bytes "%\t2541"))
          ≠ url_decode (fun _ => 0) (bytes "%\t2541") := by
  decide

/-! ## `get_mime_type` (C5) -/

theorem tolower_eq_zero (x : Nat) : tolower x = 0 ↔ x = 0 := by
  unfold tolower
  by_cases h1 : 65 ≤ x ∧ x ≤ 90
  · rw [if_pos h1]
    omega
  · rw [if_neg h1]

theorem strcasecmp_eq_zero_iff (a b : List Nat) (ha : 0 ∉ a) (hb : 0 ∉ b) :
    strcasecmp a b = 0 ↔ eq_ignore_case a b := by
  unfold eq_ignore_case
  induction a generalizing b with
  | nil =>
    cases b with
    | nil => simp [strcasecmp]
    | cons y ys =>
      have hy : y ≠ 0 := fun h => hb (by simp [h])
      have hty : (tolower y : Int) ≠ 0 := by
        exact_mod_cast fun h => hy ((tolower_eq_zero y).mp h)
      constructor
      · intro h
        simp only [strcasecmp] at h
        omega
      · intro h
        simp at h
  | cons x xs ih =>
    have hx : x ≠ 0 := fun h => ha (by simp [h])
    have hxs : 0 ∉ xs := fun h => ha (by simp [h])
    cases b with
    | nil =>
      have htx : (tolower x : Int) ≠ 0 := by
        exact_mod_cast fun h => hx ((tolower_eq_zero x).mp h)
      constructor
      · intro h
        simp only [strcasecmp] at h
        omega
      · intro h
        simp at h
    | cons y ys =>
      have hys : 0 ∉ ys := fun h => hb (by simp [h])
      by_cases hxy : tolower x = tolower y
      · simp [strcasecmp, hxy, ih ys hxs hys]
      · have hne : (tolower x : Int) ≠ (tolower y : Int) := by exact_mod_cast hxy
        constructor
        · intro h
          simp only [strcasecmp, if_neg hxy] at h
          omega
        · intro h
          simp only [List.map_cons, List.cons.injEq] at h
          exact absurd h.1 hxy

/-- C5: `get_mime_type` is total and follows the table under comparison ignoring ASCII
case: `text/html` exactly for `html` and `htm`, `text/plain` for `txt`, `image/jpeg`
for `jpg` and `jpeg`, `image/png` for `png`, `application/octet-stream` for every
other extension, the empty one included; two extensions that differ only in the case
of their letters get the same type. -/
theorem get_mime_type_table (e e' : List Nat) (he : 0 ∉ e) (he' : 0 ∉ e')
    (hcase : eq_ignore_case e' e) :
    (get_mime_type e = bytes "text/html"
        ↔ eq_ignore_case e (bytes "html") ∨ eq_ignore_case e (bytes "htm"))
      ∧ (get_mime_type e = bytes "text/plain" ↔ eq_ignore_case e (bytes "txt"))
      ∧ (get_mime_type e = bytes "image/jpeg"
        ↔ eq_ignore_case e (bytes "jpg") ∨ eq_ignore_case e (bytes "jpeg"))
      ∧ (get_mime_type e = bytes "image/png" ↔ eq_ignore_case e (bytes "png"))
      ∧ (get_mime_type e = bytes "application/octet-stream"
        ↔ ¬ (eq_ignore_case e (bytes "html") ∨ eq_ignore_case e (bytes "htm")
            ∨ eq_ignore_case e (bytes "txt") ∨ eq_ignore_case e (bytes "jpg")
            ∨ eq_ignore_case e (bytes "jpeg") ∨ eq_ignore_case e (bytes "png")))
      ∧ get_mime_type e' = get_mime_type e
      ∧ get_mime_type (bytes "HTML") = bytes "text/html"
      ∧ get_mime_type (bytes "html") = bytes "text/html"
      ∧ get_mime_type (bytes "unknown") = bytes "application/octet-stream"
      ∧ get_mime_type [] = bytes "application/octet-stream" := by
  have key : ∀ x : List Nat, 0 ∉ x → get_mime_type x =
      if eq_ignore_case x (bytes "html") ∨ eq_ignore_case x (bytes "htm") then bytes "text/html"
      else if eq_ignore_case x (bytes "txt") then bytes "text/plain"
      else if eq_ignore_case x (bytes "jpg") ∨ eq_ignore_case x (bytes "jpeg") then
        bytes "image/jpeg"
      else if eq_ignore_case x (bytes "png") then bytes "image/png"
      else bytes "application/octet-stream" := by
    intro x hx
    have h1 := strcasecmp_eq_zero_iff x (bytes "html") hx (by decide)
    have h2 := strcasecmp_eq_zero_iff x (bytes "htm") hx (by decide)
    have h3 := strcasecmp_eq_zero_iff x (bytes "txt") hx (by decide)
    have h4 := strcasecmp_eq_zero_iff x (bytes "jpg") hx (by decide)
    have h5 := strcasecmp_eq_zero_iff x (bytes "jpeg") hx (by decide)
    have h6 := strcasecmp_eq_zero_iff x (bytes "png") hx (by decide)
    unfold get_mime_type
    simp only [h1, h2, h3, h4, h5, h6]
  have c1 : (bytes "html").map tolower = [104, 116, 109, 108] := by decide
  have c2 : (bytes "htm").map tolower = [104, 116, 109] := by decide
  have c3 : (bytes "txt").map tolower = [116, 120, 116] := by decide
  have c4 : (bytes "jpg").map tolower = [106, 112, 103] := by decide
  have c5 : (bytes "jpeg").map tolower = [106, 112, 101, 103] := by decide
  have c6 : (bytes "png").map tolower = [112, 110, 103] := by decide
  have d1 : bytes "text/html" ≠ bytes "text/plain" := by decide
  have d2 : bytes "text/html" ≠ bytes "image/jpeg" := by decide
  have d3 : bytes "text/html" ≠ bytes "image/png" := by decide
  have d4 : bytes "text/html" ≠ bytes "application/octet-stream" := by decide
  have d5 : bytes "text/plain" ≠ bytes "image/jpeg" := by decide
  have d6 : bytes "text/plain" ≠ bytes "image/png" := by decide
  have d7 : bytes "text/plain" ≠ bytes "application/octet-stream" := by decide
  have d8 : bytes "image/jpeg" ≠ bytes "image/png" := by decide
  have d9 : bytes "image/jpeg" ≠ bytes "application/octet-stream" := by decide
  have d10 : bytes "image/png" ≠ bytes "application/octet-stream" := by decide
  have hinv : get_mime_type e' = get_mime_type e := by
    rw [key e he, key e' he']
    unfold eq_ignore_case at hcase
    simp only [eq_ignore_case, hcase]
  refine ⟨?_, ?_, ?_, ?_, ?_, hinv, by decide, by decide, by decide, by decide⟩
  all_goals rw [key e he]
  all_goals simp only [eq_ignore_case, c1, c2, c3, c4, c5, c6]
  all_goals generalize e.map tolower = m
  all_goals generalize bytes "text/html" = t1 at d1 d2 d3 d4 ⊢
  all_goals generalize bytes "text/plain" = t2 at d1 d5 d6 d7 ⊢
  all_goals generalize bytes "image/jpeg" = t3 at d2 d5 d8 d9 ⊢
  all_goals generalize bytes "image/png" = t4 at d3 d6 d8 d10 ⊢
  all_goals generalize bytes "application/octet-stream" = t5 at d4 d7 d9 d10 ⊢
  all_goals split_ifs with q1 q2 q3 q4
  all_goals try rcases q1 with rfl | rfl
  all_goals try rcases q3 with rfl | rfl
  all_goals try subst q2
  all_goals try subst q4
  all_goals simp_all [Ne.symm d1, Ne.symm d2, Ne.symm d3, Ne.symm d4, Ne.symm d5, Ne.symm d6,
    Ne.symm d7, Ne.symm d8, Ne.symm d9, Ne.symm d10]

theorem get_mime_type_table_witness :
    0 ∉ bytes "HTML" ∧ 0 ∉ bytes "html" ∧ eq_ignore_case (bytes "html") (bytes "HTML")
      ∧ ((get_mime_type (bytes "HTML") = bytes "text/html"
          ↔ eq_ignore_case (bytes "HTML") (bytes "html")
            ∨ eq_ignore_case (bytes "HTML") (bytes "htm"))
        ∧ (get_mime_type (bytes "HTML") = bytes "text/plain"
          ↔ eq_ignore_case (bytes "HTML") (bytes "txt"))
        ∧ (get_mime_type (bytes "HTML") = bytes "image/jpeg"
          ↔ eq_ignore_case (bytes "HTML") (bytes "jpg")
            ∨ eq_ignore_case (bytes "HTML") (bytes "jpeg"))
        ∧ (get_mime_type (bytes "HTML") = bytes "image/png"
          ↔ eq_ignore_case (bytes "HTML") (bytes "png"))
        ∧ (get_mime_type (bytes "HTML") = bytes "application/octet-stream"
          ↔ ¬ (eq_ignore_case (bytes "HTML") (bytes "html")
              ∨ eq_ignore_case (bytes "HTML") (bytes "htm")
              ∨ eq_ignore_case (bytes "HTML") (bytes "txt")
              ∨ eq_ignore_case (bytes "HTML") (bytes "jpg")
              ∨ eq_ignore_case (bytes "HTML") (bytes "jpeg")
              ∨ eq_ignore_case (bytes "HTML") (bytes "png")))
        ∧ get_mime_type (bytes "html") = get_mime_type (bytes "HTML")
        ∧ get_mime_type (bytes "HTML") = bytes "text/html"
        ∧ get_mime_type (bytes "html") = bytes "text/html"
        ∧ get_mime_type (bytes "unknown") = bytes "application/octet-stream"
        ∧ get_mime_type [] = bytes "application/octet-stream") :=
  ⟨by decide, by decide, by decide,
    get_mime_type_table (bytes "HTML") (bytes "html") (by decide) (by decide) (by decide)⟩

/-! ## `build_http_response` (C3, C4) -/

/-- C3: when the open fails, for whatever reason, `build_http_response` stores exactly
`"HTTP/1.1 404 Not Found\r\nContent-Type: text/plain\r\n\r\n404 Not Found"` and sets
`response_length` to its length, 65, whatever the extension and the MIME type it
resolves to. -/
theorem build_http_response_not_found (fs : FileSystem) (chunk : Nat)
    (file_name file_extension : List Nat) (hopen : fs file_name = none) :
    build_http_response fs chunk file_name file_extension
        = (bytes "HTTP/1.1 404 Not Found\r\nContent-Type: text/plain\r\n\r\n404 Not Found", 65)
      ∧ (bytes "HTTP/1.1 404 Not Found\r\nContent-Type: text/plain\r\n\r\n404 Not Found").length
        = 65 := by
  refine ⟨?_, by decide⟩
  unfold build_http_response
  simp only [hopen]
  decide

theorem build_http_response_not_found_witness :
    (fun _ => none : FileSystem) (bytes "missing.png") = none
      ∧ (build_http_response (fun _ => none) 4096 (bytes "missing.png") (bytes "png")
          = (bytes "HTTP/1.1 404 Not Found\r\nContent-Type: text/plain\r\n\r\n404 Not Found", 65)
        ∧ (bytes "HTTP/1.1 404 Not Found\r\nContent-Type: text/plain\r\n\r\n404 Not Found").length
          = 65) :=
  ⟨rfl, build_http_response_not_found (fun _ => none) 4096 (bytes "missing.png") (bytes "png") rfl⟩

theorem get_mime_type_length (e : List Nat) : (get_mime_type e).length ≤ 24 := by
  unfold get_mime_type
  split_ifs <;> decide

theorem read_loop_eq (chunk : Nat) (hchunk : 0 < chunk) (fuel : Nat) (file response : List Nat)
    (n : Nat) (hn : response.length = n) (hfuel : file.length < fuel) :
    read_loop chunk fuel file (response, n)
      = (response ++ file.take (BUFFER_SIZE - n), n + min file.length (BUFFER_SIZE - n)) := by
  induction fuel generalizing file response n with
  | zero => omega
  | succ fuel ih =>
    unfold read_loop
    simp only
    by_cases hk : read_count chunk file.length (BUFFER_SIZE - n) > 0
    · rw [if_pos hk]
      have hk1 : read_count chunk file.length (BUFFER_SIZE - n) ≤ file.length := by
        unfold read_count; omega
      have hk2 : read_count chunk file.length (BUFFER_SIZE - n) ≤ BUFFER_SIZE - n := by
        unfold read_count; omega
      generalize read_count chunk file.length (BUFFER_SIZE - n) = k at hk hk1 hk2
      have htake : response.take n = response := by
        rw [← hn]; exact List.take_length response
      rw [htake, ih (file.drop k) (response ++ file.take k) (n + k)
        (by rw [List.length_append, List.length_take]; omega)
        (by rw [List.length_drop]; omega)]
      have e : BUFFER_SIZE - n = k + (BUFFER_SIZE - (n + k)) := by omega
      rw [List.length_drop, List.append_assoc, e, List.take_add]
      congr 1
      omega
    · rw [if_neg hk]
      have h0 : file.length = 0 ∨ BUFFER_SIZE - n = 0 := by
        unfold read_count at hk; omega
      rcases h0 with h0 | h0
      · have : file = [] := List.length_eq_zero.mp h0
        simp [this]
      · simp [h0]

/-- C4: when the open succeeds on a file of content `c` and the header and `c`
together fit in `BUFFER_SIZE`, `build_http_response` stores exactly
`"HTTP/1.1 200 OK\r\nContent-Type: " ++ get_mime_type(e) ++ "\r\n\r\n" ++ c` and sets
`response_length` to its length: the bytes of the file as they are, no other header
and no framing.  For the extension `html` the header block is
`"HTTP/1.1 200 OK\r\nContent-Type: text/html\r\n\r\n"`. -/
theorem build_http_response_ok (fs : FileSystem) (chunk : Nat)
    (file_name file_extension c : List Nat)
    (hopen : fs file_name = some c) (hchunk : 0 < chunk)
    (hfit : (bytes "HTTP/1.1 200 OK\r\nContent-Type: " ++ get_mime_type file_extension
        ++ bytes "\r\n\r\n").length + c.length ≤ BUFFER_SIZE) :
    build_http_response fs chunk file_name file_extension
        = (bytes "HTTP/1.1 200 OK\r\nContent-Type: " ++ get_mime_type file_extension
            ++ bytes "\r\n\r\n" ++ c,
          (bytes "HTTP/1.1 200 OK\r\nContent-Type: " ++ get_mime_type file_extension
            ++ bytes "\r\n\r\n" ++ c).length)
      ∧ bytes "HTTP/1.1 200 OK\r\nContent-Type: " ++ get_mime_type (bytes "html")
          ++ bytes "\r\n\r\n" = bytes "HTTP/1.1 200 OK\r\nContent-Type: text/html\r\n\r\n" := by
  refine ⟨?_, by decide⟩
  have hmime := get_mime_type_length file_extension
  have h1 : (bytes "HTTP/1.1 200 OK\r\nContent-Type: ").length = 31 := by decide
  have h2 : (bytes "\r\n\r\n").length = 4 := by decide
  generalize hH : bytes "HTTP/1.1 200 OK\r\nContent-Type: " ++ get_mime_type file_extension
    ++ bytes "\r\n\r\n" = header at hfit ⊢
  have hlen : header.length ≤ 59 := by
    rw [← hH]
    simp only [List.length_append, h1, h2]
    omega
  have hsn : snprintf BUFFER_SIZE header = header := by
    unfold snprintf
    apply List.take_of_length_le
    unfold BUFFER_SIZE
    omega
  unfold build_http_response
  simp only [hopen, hH, hsn, Nat.zero_add]
  rw [read_loop_eq chunk hchunk _ c header header.length rfl (by omega)]
  have hall : c.take (BUFFER_SIZE - header.length) = c :=
    List.take_of_length_le (by omega)
  rw [hall, List.length_append]
  congr 1
  omega

theorem build_http_response_ok_witness :
    sample_fs (bytes "index.html") = some (bytes "<h1>It works</h1>\n") ∧ 0 < 4096
      ∧ (bytes "HTTP/1.1 200 OK\r\nContent-Type: " ++ get_mime_type (bytes "html")
          ++ bytes "\r\n\r\n").length + (bytes "<h1>It works</h1>\n").length ≤ BUFFER_SIZE
      ∧ (build_http_response sample_fs 4096 (bytes "index.html") (bytes "html")
          = (bytes "HTTP/1.1 200 OK\r\nContent-Type: " ++ get_mime_type (bytes "html")
              ++ bytes "\r\n\r\n" ++ bytes "<h1>It works</h1>\n",
            (bytes "HTTP/1.1 200 OK\r\nContent-Type: " ++ get_mime_type (bytes "html")
              ++ bytes "\r\n\r\n" ++ bytes "<h1>It works</h1>\n").length)
        ∧ bytes "HTTP/1.1 200 OK\r\nContent-Type: " ++ get_mime_type (bytes "html")
            ++ bytes "\r\n\r\n" = bytes "HTTP/1.1 200 OK\r\nContent-Type: text/html\r\n\r\n") :=
  ⟨by decide, by decide, by decide,
    build_http_response_ok sample_fs 4096 (bytes "index.html") (bytes "html")
      (bytes "<h1>It works</h1>\n") (by decide) (by decide) (by decide)⟩

/-! ## `handle_client` (C6, C7) -/

theorem match_request_line_eq_none (buffer : List Nat) :
    match_request_line buffer = none ↔ regexec (cstr buffer) = none := by
  unfold match_request_line
  cases regexec (cstr buffer) <;> simp

/-- C6: on every receive buffer that the request-line pattern does not match,
`handle_client` sends nothing, stays defined and closes the connection; such are the
requests with the method `POST` and those with `get` in small letters. -/
theorem handle_client_no_match (fs : FileSystem) (chunk : Nat) (uninit : Nat → Nat)
    (recv_result : Int) (buffer : List Nat) (h : match_request_line buffer = none) :
    handle_client fs chunk uninit recv_result buffer = some [Event.close]
      ∧ match_request_line (bytes "POST /index.html HTTP/1.1\r\n\r\n") = none
      ∧ match_request_line (bytes "get /index.html HTTP/1.1\r\n\r\n") = none := by
  refine ⟨?_, by decide, by decide⟩
  have hr := (match_request_line_eq_none buffer).mp h
  unfold handle_client
  simp only [hr]
  split_ifs <;> rfl

theorem handle_client_no_match_witness :
    match_request_line (bytes "POST /index.html HTTP/1.1\r\n\r\n") = none
      ∧ (handle_client sample_fs 4096 (fun _ => 0) 29
            (bytes "POST /index.html HTTP/1.1\r\n\r\n") = some [Event.close]
        ∧ match_request_line (bytes "POST /index.html HTTP/1.1\r\n\r\n") = none
        ∧ match_request_line (bytes "get /index.html HTTP/1.1\r\n\r\n") = none) :=
  ⟨by decide, handle_client_no_match sample_fs 4096 (fun _ => 0) 29
    (bytes "POST /index.html HTTP/1.1\r\n\r\n") (by decide)⟩

/-- When the receive delivered something, the pattern matches with raw path `p`, and
the extension of the decoded path fits the 32-byte array `file_extension`,
`handle_client` sends once, the response that `build_http_response` builds for the
decoded path and its extension, and closes. -/
theorem handle_client_match (fs : FileSystem) (chunk : Nat) (uninit : Nat → Nat)
    (recv_result : Int) (buffer p : List Nat)
    (hrecv : recv_result % 18446744073709551616 ≠ 0)
    (h : match_request_line buffer = some p)
    (hext : (get_file_extension (cstr (url_decode uninit p))).length < 32) :
    handle_client fs chunk uninit recv_result buffer
      = some [Event.send
          ((build_http_response fs chunk (cstr (url_decode uninit p))
              (get_file_extension (cstr (url_decode uninit p)))).1.take
            (build_http_response fs chunk (cstr (url_decode uninit p))
              (get_file_extension (cstr (url_decode uninit p)))).2),
        Event.close] := by
  unfold match_request_line at h
  cases hm : regexec (cstr buffer) with
  | none => simp [hm] at h
  | some m =>
    rw [hm, Option.map_some', Option.some.injEq] at h
    have hpos : (recv_result % 18446744073709551616).toNat > 0 := by
      have := Int.emod_nonneg recv_result (by decide : (18446744073709551616 : Int) ≠ 0)
      omega
    unfold handle_client
    simp only [hpos, if_true, hm, h]
    unfold strcpy
    rw [if_pos (by omega)]

/-- C7 fails at a path whose extension has 32 bytes: the pattern matches, and the
`strcpy` into `char file_extension[32]` runs past the array, so that what
`handle_client` then does is undefined. -/
theorem handle_client_long_extension :
    match_request_line long_extension_request = some (bytes "a.aaaaaaaaaaaaaaaaaaaaaaaaaaaaaaaa")
      ∧ (get_file_extension (cstr (url_decode (fun _ => 0)
          (bytes "a.aaaaaaaaaaaaaaaaaaaaaaaaaaaaaaaa")))).length = 32
      ∧ strcpy 32 (get_file_extension (cstr (url_decode (fun _ => 0)
          (bytes "a.aaaaaaaaaaaaaaaaaaaaaaaaaaaaaaaa")))) = none
      ∧ handle_client sample_fs 4096 (fun _ => 0) 52 long_extension_request = none := by
  decide

/-! ## `url_decode`: lengths (C11) -/

theorem url_decode_states_inv (uninit : Nat → Nat) (source : List Nat) (fuel i : Nat)
    (decoded : List Nat) (hd : decoded.length ≤ i) (hi : i ≤ source.length) :
    ∀ st ∈ url_decode_states uninit source fuel i decoded,
      st.2.length ≤ st.1 ∧ st.1 ≤ source.length := by
  induction fuel generalizing i decoded with
  | zero =>
    intro st hst
    simp only [url_decode_states, List.mem_singleton] at hst
    subst hst
    exact ⟨hd, hi⟩
  | succ fuel ih =>
    intro st hst
    unfold url_decode_states at hst
    rcases List.mem_cons.mp hst with h | h
    · subst h
      exact ⟨hd, hi⟩
    · by_cases hlt : i < source.length
      · rw [if_pos hlt] at h
        by_cases hc : source.getD i 0 = 37 ∧ i + 2 < source.length
        · rw [if_pos hc] at h
          exact ih (i + 2 + 1) _ (by simp; omega) (by omega) st h
        · rw [if_neg hc] at h
          exact ih (i + 1) _ (by simp; omega) (by omega) st h
      · rw [if_neg hlt] at h
        simp at h

theorem getLast?_cons_map {α β : Type} (f : α → β) (a : α) (l : List α) (x : β)
    (h : (l.getLast?).map f = some x) : ((a :: l).getLast?).map f = some x := by
  rw [List.getLast?_cons]
  cases hl : l.getLast? with
  | none => rw [hl] at h; simp at h
  | some st => rw [hl] at h; simpa using h

theorem url_decode_states_last (uninit : Nat → Nat) (source : List Nat) (fuel i : Nat)
    (decoded : List Nat) :
    ((url_decode_states uninit source fuel i decoded).getLast?).map Prod.snd
      = some (url_decode_loop uninit source fuel i decoded) := by
  induction fuel generalizing i decoded with
  | zero => simp [url_decode_states, url_decode_loop]
  | succ fuel ih =>
    unfold url_decode_states url_decode_loop
    by_cases hlt : i < source.length
    · rw [if_pos hlt, if_pos hlt]
      by_cases hc : source.getD i 0 = 37 ∧ i + 2 < source.length
      · rw [if_pos hc, if_pos hc]
        exact getLast?_cons_map _ _ _ _ (ih _ _)
      · rw [if_neg hc, if_neg hc]
        exact getLast?_cons_map _ _ _ _ (ih _ _)
    · rw [if_neg hlt, if_neg hlt]
      simp

/-- C11: at every evaluation of the loop test of `url_decode`, and at exit,
`decoded_length ≤ i ≤ strlen(source)`; so a byte is written (at an iteration, where
`i < strlen(source)`) at an index below `strlen(source)`, the terminator at an index
of at most `strlen(source)`, both inside the `strlen(source) + 1` bytes allocated, and
the output is no longer than the input. -/
theorem url_decode_length_le (uninit : Nat → Nat) (s : List Nat) :
    (∀ st ∈ url_decode_states uninit s s.length 0 [],
        st.2.length ≤ st.1 ∧ st.1 ≤ s.length ∧ st.2.length ≤ s.length
          ∧ (st.1 < s.length → st.2.length < s.length))
      ∧ ((url_decode_states uninit s s.length 0 []).getLast?).map Prod.snd
          = some (url_decode uninit s)
      ∧ (url_decode uninit s).length ≤ s.length
      ∧ (url_decode uninit s).length < s.length + 1 := by
  have hinv := url_decode_states_inv uninit s s.length 0 [] (by simp) (by omega)
  have hlast := url_decode_states_last uninit s s.length 0 []
  have hlen : (url_decode uninit s).length ≤ s.length := by
    cases hl : (url_decode_states uninit s s.length 0 []).getLast? with
    | none => rw [hl] at hlast; simp at hlast
    | some st =>
      rw [hl] at hlast
      simp only [Option.map_some', Option.some.injEq] at hlast
      have hmem := List.mem_of_getLast?_eq_some hl
      have := hinv st hmem
      unfold url_decode
      rw [← hlast]
      omega
  refine ⟨?_, hlast, hlen, by omega⟩
  intro st hst
  have := hinv st hst
  refine ⟨this.1, this.2, by omega, fun h => by omega⟩

/-! ## `get_file_extension` (C12) -/

theorem strrchr_none (p : List Nat) (c : Nat) (hp : c ∉ p) : strrchr p c = none := by
  induction p with
  | nil => rfl
  | cons x xs ih =>
    have hx : x ≠ c := fun h => hp (by simp [h])
    have hxs : c ∉ xs := fun h => hp (by simp [h])
    simp [strrchr, ih hxs, hx]

theorem strrchr_last (front back : List Nat) (c : Nat) (hback : c ∉ back) :
    strrchr (front ++ c :: back) c = some front.length := by
  induction front with
  | nil => simp [strrchr, strrchr_none back c hback]
  | cons x xs ih => simp [strrchr, ih]

theorem exists_last_occurrence (p : List Nat) (c : Nat) (hp : c ∈ p) :
    ∃ front back, p = front ++ c :: back ∧ c ∉ back := by
  induction p with
  | nil => simp at hp
  | cons x xs ih =>
    by_cases hxs : c ∈ xs
    · obtain ⟨front, back, he, hb⟩ := ih hxs
      exact ⟨x :: front, back, by rw [he]; rfl, hb⟩
    · have hx : c = x := by
        rcases List.mem_cons.mp hp with h | h
        · exact h
        · exact absurd h hxs
      subst hx
      exact ⟨[], xs, rfl, hxs⟩

theorem get_file_extension_no_dot (p : List Nat) (hp : 46 ∉ p) :
    get_file_extension p = [] := by
  unfold get_file_extension
  rw [strrchr_none p 46 hp]

theorem get_file_extension_last_dot (front back : List Nat) (hback : 46 ∉ back) :
    get_file_extension (front ++ 46 :: back) = if front = [] then [] else back := by
  unfold get_file_extension
  rw [strrchr_last front back 46 hback]
  cases front with
  | nil => rfl
  | cons x xs =>
    simp only [List.length_cons, reduceCtorEq, if_false]
    have : (x :: xs ++ 46 :: back).drop (xs.length + 1 + 1) = back := by
      have h := List.drop_left (x :: xs) (46 :: back)
      simp only [List.length_cons] at h
      rw [show xs.length + 1 + 1 = (xs.length + 1) + 1 from rfl, ← List.drop_drop, h]
      rfl
    exact this

/-- C12, as amended: `get_file_extension` returns the substring after the last `.` of
the path, except that it returns the empty string when the path holds no `.` or its
last `.` is its first byte; the result is empty in exactly those two cases and when
the last `.` is the last byte of the path; the result never holds a `.`. -/
theorem get_file_extension_spec (p front back : List Nat) (x : Nat)
    (hp : 46 ∉ p) (hback : 46 ∉ back) :
    get_file_extension p = []
      ∧ get_file_extension (46 :: back) = []
      ∧ get_file_extension (x :: front ++ 46 :: back) = back
      ∧ (∀ q : List Nat, 46 ∉ get_file_extension q)
      ∧ (∀ q : List Nat, get_file_extension q = [] ↔
          (46 ∉ q ∨ (∃ rest, q = 46 :: rest ∧ 46 ∉ rest) ∨ ∃ start, q = start ++ [46])) := by
  refine ⟨get_file_extension_no_dot p hp, ?_, ?_, ?_, ?_⟩
  · simpa using get_file_extension_last_dot [] back hback
  · simpa using get_file_extension_last_dot (x :: front) back hback
  · intro q
    by_cases hq : 46 ∈ q
    · obtain ⟨f, b, rfl, hb⟩ := exists_last_occurrence q 46 hq
      rw [get_file_extension_last_dot f b hb]
      split_ifs
      · simp
      · exact hb
    · rw [get_file_extension_no_dot q hq]
      simp
  · intro q
    by_cases hq : 46 ∈ q
    · obtain ⟨f, b, rfl, hb⟩ := exists_last_occurrence q 46 hq
      rw [get_file_extension_last_dot f b hb]
      constructor
      · intro h
        right
        cases f with
        | nil => exact Or.inl ⟨b, rfl, hb⟩
        | cons y ys =>
          simp only [reduceCtorEq, if_false] at h
          exact Or.inr ⟨y :: ys, by rw [h]⟩
      · rintro (h | ⟨rest, h, hrest⟩ | ⟨start, h⟩)
        · exact absurd hq h
        · cases f with
          | nil => simp
          | cons y ys =>
            exfalso
            simp only [List.cons_append, List.cons.injEq] at h
            apply hrest
            rw [← h.2]
            simp
        · cases f with
          | nil => simp
          | cons y ys =>
            simp only [reduceCtorEq, if_false]
            cases b with
            | nil => rfl
            | cons z zs =>
              exfalso
              have hl := congrArg List.getLast? h
              rw [List.getLast?_append_of_ne_nil _ (by simp), List.getLast?_cons_cons,
                List.getLast?_append_of_ne_nil _ (by simp)] at hl
              exact hb (List.mem_of_getLast?_eq_some hl)
    · simp [get_file_extension_no_dot q hq, hq]

theorem get_file_extension_spec_witness :
    46 ∉ bytes "Makefile" ∧ 46 ∉ bytes "gz"
      ∧ (get_file_extension (bytes "Makefile") = []
        ∧ get_file_extension (46 :: bytes "gz") = []
        ∧ get_file_extension (97 :: bytes ".tar" ++ 46 :: bytes "gz") = bytes "gz"
        ∧ (∀ q : List Nat, 46 ∉ get_file_extension q)
        ∧ (∀ q : List Nat, get_file_extension q = [] ↔
            (46 ∉ q ∨ (∃ rest, q = 46 :: rest ∧ 46 ∉ rest) ∨ ∃ start, q = start ++ [46]))) :=
  ⟨by decide, by decide,
    get_file_extension_spec (bytes "Makefile") (bytes ".tar") (bytes "gz") 97
      (by decide) (by decide)⟩

/-- C12, as stated, fails: the path `archive.` holds a `.` that is not its first
byte, and its extension is empty all the same, the last `.` being its last byte. -/
theorem get_file_extension_empty_after_final_dot :
    get_file_extension (bytes "archive.") = []
      ∧ 46 ∈ bytes "archive."
      ∧ strrchr (bytes "archive.") 46 = some 7 := by
  decide

/-! ## `case_insensitive_compare` (C18) -/

theorem case_insensitive_compare_iff (a b : List Nat) (ha : 0 ∉ a) (hb : 0 ∉ b) :
    case_insensitive_compare a b = true ↔
      (a.length = b.length ∧ ∀ i, i < a.length → tolower (a.getD i 0) = tolower (b.getD i 0)) := by
  induction a generalizing b with
  | nil =>
    cases b with
    | nil => simp [case_insensitive_compare]
    | cons y ys =>
      have hy : y ≠ 0 := fun h => hb (by simp [h])
      simp [case_insensitive_compare, Ne.symm hy]
  | cons x xs ih =>
    have hx : x ≠ 0 := fun h => ha (by simp [h])
    have hxs : 0 ∉ xs := fun h => ha (by simp [h])
    cases b with
    | nil => simp [case_insensitive_compare, hx]
    | cons y ys =>
      have hys : 0 ∉ ys := fun h => hb (by simp [h])
      by_cases hxy : tolower x = tolower y
      · simp only [case_insensitive_compare, hxy, ne_eq, not_true_eq_false, if_false,
          ih ys hxs hys, List.length_cons, Nat.add_right_cancel_iff]
        constructor
        · rintro ⟨hl, h⟩
          refine ⟨hl, ?_⟩
          intro i hi
          cases i with
          | zero => simpa using hxy
          | succ j => simpa using h j (by omega)
        · rintro ⟨hl, h⟩
          refine ⟨hl, ?_⟩
          intro i hi
          simpa using h (i + 1) (by omega)
      · simp only [case_insensitive_compare, ne_eq, hxy, not_false_eq_true, if_true,
          Bool.false_eq_true, false_iff, not_and, not_forall]
        intro _
        exact ⟨0, by simp, by simpa using hxy⟩

theorem case_insensitive_compare_comm (a b : List Nat) :
    case_insensitive_compare a b = case_insensitive_compare b a := by
  induction a generalizing b with
  | nil =>
    cases b with
    | nil => rfl
    | cons y ys => simp [case_insensitive_compare, eq_comm]
  | cons x xs ih =>
    cases b with
    | nil => simp [case_insensitive_compare, eq_comm]
    | cons y ys =>
      by_cases hxy : tolower x = tolower y
      · simp [case_insensitive_compare, hxy, ih ys]
      · simp [case_insensitive_compare, hxy, Ne.symm hxy]

theorem case_insensitive_compare_prefix (a rest : List Nat) (x : Nat) (hx : x ≠ 0) :
    case_insensitive_compare a (a ++ x :: rest) = false := by
  induction a with
  | nil => simp [case_insensitive_compare, Ne.symm hx]
  | cons y ys ih => simp [case_insensitive_compare, ih]

/-- C18: on C strings `a`, `b`, `case_insensitive_compare(a, b)` is true exactly when
the two have the same length and `tolower(a[i]) = tolower(b[i])` at every index; it
is false when one is a proper prefix of the other, and symmetric in its arguments. -/
theorem case_insensitive_compare_spec (a b rest : List Nat) (x : Nat)
    (ha : 0 ∉ a) (hb : 0 ∉ b) (hx : x ≠ 0) :
    (case_insensitive_compare a b = true ↔
        (a.length = b.length
          ∧ ∀ i, i < a.length → tolower (a.getD i 0) = tolower (b.getD i 0)))
      ∧ case_insensitive_compare a (a ++ x :: rest) = false
      ∧ case_insensitive_compare (a ++ x :: rest) a = false
      ∧ case_insensitive_compare a b = case_insensitive_compare b a := by
  refine ⟨case_insensitive_compare_iff a b ha hb, case_insensitive_compare_prefix a rest x hx,
    ?_, case_insensitive_compare_comm a b⟩
  rw [case_insensitive_compare_comm]
  exact case_insensitive_compare_prefix a rest x hx

theorem case_insensitive_compare_spec_witness :
    0 ∉ bytes "Index.HTML" ∧ 0 ∉ bytes "index.html" ∧ (46 : Nat) ≠ 0
      ∧ ((case_insensitive_compare (bytes "Index.HTML") (bytes "index.html") = true ↔
          ((bytes "Index.HTML").length = (bytes "index.html").length
            ∧ ∀ i, i < (bytes "Index.HTML").length →
              tolower ((bytes "Index.HTML").getD i 0) = tolower ((bytes "index.html").getD i 0)))
        ∧ case_insensitive_compare (bytes "Index.HTML") (bytes "Index.HTML" ++ 46 :: bytes "bak")
            = false
        ∧ case_insensitive_compare (bytes "Index.HTML" ++ 46 :: bytes "bak") (bytes "Index.HTML")
            = false
        ∧ case_insensitive_compare (bytes "Index.HTML") (bytes "index.html")
            = case_insensitive_compare (bytes "index.html") (bytes "Index.HTML")) :=
  ⟨by decide, by decide, by decide,
    case_insensitive_compare_spec (bytes "Index.HTML") (bytes "index.html") (bytes "bak") 46
      (by decide) (by decide) (by decide)⟩

/-! ## `build_http_response`: the bound (C16) -/

/-- C16: for every file that opens, the response is the 200 header followed by the
first `min(size, BUFFER_SIZE - length of header)` bytes of the file, `response_length`
is its length, and that is at most `BUFFER_SIZE`: a file that exceeds the bound is cut
short without an error. -/
theorem build_http_response_bounded (fs : FileSystem) (chunk : Nat)
    (file_name file_extension c : List Nat)
    (hopen : fs file_name = some c) (hchunk : 0 < chunk) :
    (build_http_response fs chunk file_name file_extension).1
        = bytes "HTTP/1.1 200 OK\r\nContent-Type: " ++ get_mime_type file_extension
            ++ bytes "\r\n\r\n"
          ++ c.take (min c.length (BUFFER_SIZE
              - (bytes "HTTP/1.1 200 OK\r\nContent-Type: " ++ get_mime_type file_extension
                  ++ bytes "\r\n\r\n").length))
      ∧ (build_http_response fs chunk file_name file_extension).2
          = (build_http_response fs chunk file_name file_extension).1.length
      ∧ (build_http_response fs chunk file_name file_extension).2 ≤ BUFFER_SIZE := by
  have hmime := get_mime_type_length file_extension
  have h1 : (bytes "HTTP/1.1 200 OK\r\nContent-Type: ").length = 31 := by decide
  have h2 : (bytes "\r\n\r\n").length = 4 := by decide
  generalize hH : bytes "HTTP/1.1 200 OK\r\nContent-Type: " ++ get_mime_type file_extension
    ++ bytes "\r\n\r\n" = header
  have hlen : header.length ≤ 59 := by
    rw [← hH]
    simp only [List.length_append, h1, h2]
    omega
  have hB : BUFFER_SIZE = 104857600 := rfl
  have hsn : snprintf BUFFER_SIZE header = header := by
    unfold snprintf
    apply List.take_of_length_le
    omega
  have hr : build_http_response fs chunk file_name file_extension
      = (header ++ c.take (BUFFER_SIZE - header.length),
          header.length + min c.length (BUFFER_SIZE - header.length)) := by
    unfold build_http_response
    simp only [hopen, hH, hsn, Nat.zero_add]
    exact read_loop_eq chunk hchunk _ c header header.length rfl (by omega)
  rw [hr]
  have htake : c.take (min c.length (BUFFER_SIZE - header.length))
      = c.take (BUFFER_SIZE - header.length) := by
    rcases Nat.le_total c.length (BUFFER_SIZE - header.length) with h | h
    · rw [Nat.min_eq_left h, List.take_of_length_le h, List.take_of_length_le (Nat.le_refl _)]
    · rw [Nat.min_eq_right h]
  refine ⟨by rw [htake], ?_, ?_⟩
  · simp only [List.length_append, List.length_take]
    rw [Nat.min_comm]
  · simp only
    omega

theorem build_http_response_bounded_witness :
    huge_fs (bytes "big.bin") = some (List.replicate (BUFFER_SIZE + 1) 120) ∧ 0 < 65536
      ∧ ((build_http_response huge_fs 65536 (bytes "big.bin") (bytes "bin")).1
          = bytes "HTTP/1.1 200 OK\r\nContent-Type: " ++ get_mime_type (bytes "bin")
              ++ bytes "\r\n\r\n"
            ++ (List.replicate (BUFFER_SIZE + 1) 120).take
                (min (List.replicate (BUFFER_SIZE + 1) 120).length (BUFFER_SIZE
                  - (bytes "HTTP/1.1 200 OK\r\nContent-Type: " ++ get_mime_type (bytes "bin")
                      ++ bytes "\r\n\r\n").length))
        ∧ (build_http_response huge_fs 65536 (bytes "big.bin") (bytes "bin")).2
            = (build_http_response huge_fs 65536 (bytes "big.bin") (bytes "bin")).1.length
        ∧ (build_http_response huge_fs 65536 (bytes "big.bin") (bytes "bin")).2 ≤ BUFFER_SIZE) :=
  ⟨rfl, by decide,
    build_http_response_bounded huge_fs 65536 (bytes "big.bin") (bytes "bin")
      (List.replicate (BUFFER_SIZE + 1) 120) rfl (by decide)⟩

/-! ## `handle_client`: the receive, the close, the copy (C13, C14, C19, C20) -/

theorem handle_client_of_match (fs : FileSystem) (chunk : Nat) (uninit : Nat → Nat)
    (recv_result : Int) (buffer p : List Nat)
    (hrecv : recv_result % 18446744073709551616 ≠ 0)
    (h : match_request_line buffer = some p) :
    handle_client fs chunk uninit recv_result buffer
      = (strcpy 32 (get_file_extension (cstr (url_decode uninit p)))).map
          (fun file_extension =>
            [Event.send
              ((build_http_response fs chunk (cstr (url_decode uninit p)) file_extension).1.take
                (build_http_response fs chunk (cstr (url_decode uninit p)) file_extension).2),
              Event.close]) := by
  unfold match_request_line at h
  cases hm : regexec (cstr buffer) with
  | none => simp [hm] at h
  | some m =>
    rw [hm, Option.map_some', Option.some.injEq] at h
    have hpos : (recv_result % 18446744073709551616).toNat > 0 := by
      have := Int.emod_nonneg recv_result (by decide : (18446744073709551616 : Int) ≠ 0)
      omega
    unfold handle_client
    simp only [hpos, if_true, hm, h]
    cases strcpy 32 (get_file_extension (cstr (url_decode uninit p))) <;> rfl

theorem handle_client_recv_zero (fs : FileSystem) (chunk : Nat) (uninit : Nat → Nat)
    (recv_result : Int) (buffer : List Nat)
    (hrecv : recv_result % 18446744073709551616 = 0) :
    handle_client fs chunk uninit recv_result buffer = some [Event.close] := by
  unfold handle_client
  simp [hrecv]

/-- C13 fails when `recv` returns -1: `bytes_received` is a `size_t`, the value
becomes `2 ^ 64 - 1` and passes the test `> 0`, so the parser runs on what the buffer
holds and a response is sent when that matches; the run is the one of a receive of
one byte.  When `recv` returns 0 nothing is parsed or sent. -/
theorem handle_client_recv_error :
    handle_client sample_fs 4096 (fun _ => 0) (-1) index_request
        = some [Event.send
            (bytes "HTTP/1.1 200 OK\r\nContent-Type: text/html\r\n\r\n<h1>It works</h1>\n"),
          Event.close]
      ∧ (∀ (fs : FileSystem) (chunk : Nat) (uninit : Nat → Nat) (buffer : List Nat),
          handle_client fs chunk uninit (-1) buffer = handle_client fs chunk uninit 1 buffer)
      ∧ (∀ (fs : FileSystem) (chunk : Nat) (uninit : Nat → Nat) (buffer : List Nat),
          handle_client fs chunk uninit 0 buffer = some [Event.close]) := by
  refine ⟨by decide, ?_, ?_⟩
  · intro fs chunk uninit buffer
    unfold handle_client
    rfl
  · intro fs chunk uninit buffer
    exact handle_client_recv_zero fs chunk uninit 0 buffer (by decide)

/-- C14 fails on the requests whose extension overflows `file_extension`: a run of
`handle_client` either is undefined, which happens exactly when something was
received, the pattern matches and the extension of the decoded path has 32 bytes or
more, or it makes at most one `send` and then one `close`, the last call. -/
theorem handle_client_closes_or_undefined :
    (∀ (fs : FileSystem) (chunk : Nat) (uninit : Nat → Nat) (recv_result : Int)
        (buffer : List Nat),
        (handle_client fs chunk uninit recv_result buffer = none
          ∧ recv_result % 18446744073709551616 ≠ 0
          ∧ ∃ p, match_request_line buffer = some p
              ∧ 32 ≤ (get_file_extension (cstr (url_decode uninit p))).length)
        ∨ ∃ sent, handle_client fs chunk uninit recv_result buffer = some (sent ++ [Event.close])
            ∧ Event.close ∉ sent ∧ sent.length ≤ 1)
      ∧ handle_client (fun _ => none) 1 (fun _ => 0) 52 long_extension_request = none := by
  refine ⟨?_, by decide⟩
  intro fs chunk uninit recv_result buffer
  by_cases hrecv : recv_result % 18446744073709551616 = 0
  · right
    exact ⟨[], by rw [handle_client_recv_zero fs chunk uninit recv_result buffer hrecv]; rfl,
      by simp, by simp⟩
  · cases hm : match_request_line buffer with
    | none =>
      right
      have hr := (match_request_line_eq_none buffer).mp hm
      refine ⟨[], ?_, by simp, by simp⟩
      unfold handle_client
      simp only [hr]
      split_ifs <;> rfl
    | some p =>
      rw [handle_client_of_match fs chunk uninit recv_result buffer p hrecv hm]
      unfold strcpy
      by_cases hfit : (get_file_extension (cstr (url_decode uninit p))).length + 1 ≤ 32
      · right
        rw [if_pos hfit]
        exact ⟨[_], rfl, by simp, by simp⟩
      · left
        rw [if_neg hfit]
        exact ⟨rfl, hrecv, p, rfl, by omega⟩

/-- C19 fails: the extension of a matched request is as long as the client makes it.
With 31 bytes the copy into `file_extension[32]` fits; with 32 bytes the terminator is
written past the array. -/
theorem file_extension_overflow :
    match_request_line long_extension_request
        = some (bytes "a.aaaaaaaaaaaaaaaaaaaaaaaaaaaaaaaa")
      ∧ ¬ (get_file_extension (cstr (url_decode (fun _ => 0)
            (bytes "a.aaaaaaaaaaaaaaaaaaaaaaaaaaaaaaaa")))).length ≤ 31
      ∧ strcpy 32 (get_file_extension (cstr (url_decode (fun _ => 0)
            (bytes "a.aaaaaaaaaaaaaaaaaaaaaaaaaaaaaaaa")))) = none
      ∧ match_request_line fitting_extension_request
        = some (bytes "a.aaaaaaaaaaaaaaaaaaaaaaaaaaaaaaa")
      ∧ strcpy 32 (get_file_extension (cstr (url_decode (fun _ => 0)
            (bytes "a.aaaaaaaaaaaaaaaaaaaaaaaaaaaaaaa"))))
          = some (bytes "aaaaaaaaaaaaaaaaaaaaaaaaaaaaaaa") := by
  decide

/-- When the extension fits `file_extension`, the file that is opened and the
extension that selects the content type are the decoded bytes before the first zero
byte and the extension of those: two requests whose decoded paths agree up to their
first zero byte are answered with the same bytes. -/
theorem handle_client_same_decoded_prefix (fs : FileSystem) (chunk : Nat)
    (uninit uninit2 : Nat → Nat) (recv_result recv_result2 : Int)
    (buffer buffer2 p p2 : List Nat)
    (hrecv : recv_result % 18446744073709551616 ≠ 0)
    (hrecv2 : recv_result2 % 18446744073709551616 ≠ 0)
    (h : match_request_line buffer = some p) (h2 : match_request_line buffer2 = some p2)
    (hd : cstr (url_decode uninit p) = cstr (url_decode uninit2 p2))
    (hfit : (get_file_extension (cstr (url_decode uninit p))).length < 32) :
    handle_client fs chunk uninit recv_result buffer
        = some [Event.send
            ((build_http_response fs chunk (cstr (url_decode uninit p))
                (get_file_extension (cstr (url_decode uninit p)))).1.take
              (build_http_response fs chunk (cstr (url_decode uninit p))
                (get_file_extension (cstr (url_decode uninit p)))).2),
          Event.close]
      ∧ handle_client fs chunk uninit2 recv_result2 buffer2
        = handle_client fs chunk uninit recv_result buffer := by
  have e1 := handle_client_match fs chunk uninit recv_result buffer p hrecv h hfit
  have e2 := handle_client_match fs chunk uninit2 recv_result2 buffer2 p2 hrecv2 h2
    (by rw [← hd]; exact hfit)
  refine ⟨e1, ?_⟩
  rw [e1, e2, hd]

/-- C20 fails on the requests whose extension overflows `file_extension`: the two
paths below decode to the same bytes before their first zero byte, a name with an
extension of 32 bytes, and differ after it; on both the `strcpy` runs past the array
and no response is defined. -/
theorem handle_client_zero_byte_overflow :
    match_request_line (bytes "GET /a.aaaaaaaaaaaaaaaaaaaaaaaaaaaaaaaa%00x HTTP/1.1\r\n\r\n")
        = some (bytes "a.aaaaaaaaaaaaaaaaaaaaaaaaaaaaaaaa%00x")
      ∧ match_request_line (bytes "GET /a.aaaaaaaaaaaaaaaaaaaaaaaaaaaaaaaa%00yy HTTP/1.1\r\n\r\n")
        = some (bytes "a.aaaaaaaaaaaaaaaaaaaaaaaaaaaaaaaa%00yy")
      ∧ 0 ∈ url_decode (fun _ => 0) (bytes "a.aaaaaaaaaaaaaaaaaaaaaaaaaaaaaaaa%00x")
      ∧ 0 ∈ url_decode (fun _ => 0) (bytes "a.aaaaaaaaaaaaaaaaaaaaaaaaaaaaaaaa%00yy")
      ∧ cstr (url_decode (fun _ => 0) (bytes "a.aaaaaaaaaaaaaaaaaaaaaaaaaaaaaaaa%00x"))
        = cstr (url_decode (fun _ => 0) (bytes "a.aaaaaaaaaaaaaaaaaaaaaaaaaaaaaaaa%00yy"))
      ∧ (get_file_extension (cstr (url_decode (fun _ => 0)
          (bytes "a.aaaaaaaaaaaaaaaaaaaaaaaaaaaaaaaa%00x")))).length = 32
      ∧ handle_client sample_fs 4096 (fun _ => 0) 56
          (bytes "GET /a.aaaaaaaaaaaaaaaaaaaaaaaaaaaaaaaa%00x HTTP/1.1\r\n\r\n") = none
      ∧ handle_client sample_fs 4096 (fun _ => 0) 57
          (bytes "GET /a.aaaaaaaaaaaaaaaaaaaaaaaaaaaaaaaa%00yy HTTP/1.1\r\n\r\n") = none := by
  decide

/-! ## The request line: what the match depends on (C15) -/

theorem regexec_eq_ite (c : List Nat) :
    regexec c =
      if c.take 5 = bytes "GET /"
          ∧ ((c.drop 5).dropWhile (fun x => x != 32)).take 7 = bytes " HTTP/1" then
        some (5, 5 + ((c.drop 5).takeWhile (fun x => x != 32)).length)
      else none := by
  by_cases hc : c.take 5 = bytes "GET /"
      ∧ ((c.drop 5).dropWhile (fun x => x != 32)).take 7 = bytes " HTTP/1"
  · rw [if_pos hc]
    apply (regexec_eq_some_iff c _).mpr
    refine ⟨(c.drop 5).takeWhile (fun x => x != 32),
      ((c.drop 5).dropWhile (fun x => x != 32)).drop 7, not_mem_takeWhile 32 _, ?_, rfl⟩
    rw [← hc.1, ← hc.2, List.append_assoc, List.append_assoc, List.take_append_drop,
      List.takeWhile_append_dropWhile, List.take_append_drop]
  · rw [if_neg hc]
    cases hr : regexec c with
    | none => rfl
    | some m =>
      exfalso
      obtain ⟨p, rest, hp, hb, _⟩ := (regexec_eq_some_iff c m).mp hr
      apply hc
      have h5 : c.take 5 = bytes "GET /" := by
        rw [hb]
        simp [bytes_GET]
      have hd : c.drop 5 = p ++ 32 :: ([72, 84, 84, 80, 47, 49] ++ rest) := by
        rw [hb]
        simp [bytes_GET, bytes_HTTP]
      refine ⟨h5, ?_⟩
      rw [hd, (takeWhile_not_mem 32 p _ hp).2]
      simp [bytes_HTTP]

theorem match_request_line_eq_ite (buffer : List Nat) :
    match_request_line buffer =
      if (cstr buffer).take 5 = bytes "GET /"
          ∧ (((cstr buffer).drop 5).dropWhile (fun x => x != 32)).take 7 = bytes " HTTP/1" then
        some (((cstr buffer).drop 5).takeWhile (fun x => x != 32))
      else none := by
  unfold match_request_line
  rw [regexec_eq_ite]
  by_cases hc : (cstr buffer).take 5 = bytes "GET /"
      ∧ (((cstr buffer).drop 5).dropWhile (fun x => x != 32)).take 7 = bytes " HTTP/1"
  · rw [if_pos hc, if_pos hc, Option.map_some']
    congr 1
    apply url_encoded_file_name_eq buffer _
      ((((cstr buffer).drop 5).dropWhile (fun x => x != 32)).drop 7)
    rw [← hc.1, ← hc.2, List.append_assoc, List.append_assoc, List.take_append_drop,
      List.takeWhile_append_dropWhile, List.take_append_drop]
  · rw [if_neg hc, if_neg hc]
    rfl

theorem takeWhile_of_take_eq (P : Nat → Bool) (n : Nat) (hn : 0 < n) (d d2 : List Nat)
    (h : d.take ((d.takeWhile P).length + n) = d2.take ((d.takeWhile P).length + n)) :
    d.takeWhile P = d2.takeWhile P ∧ (d.dropWhile P).take n = (d2.dropWhile P).take n := by
  induction d generalizing d2 with
  | nil =>
    simp only [List.takeWhile_nil, List.length_nil, Nat.zero_add, List.take_nil] at h
    rcases List.take_eq_nil_iff.mp h.symm with h0 | h0
    · omega
    · subst h0
      simp
  | cons x xs ih =>
    by_cases hx : P x = true
    · simp only [List.takeWhile_cons, hx, if_true, List.length_cons] at h ⊢
      rw [show (xs.takeWhile P).length + 1 + n = ((xs.takeWhile P).length + n) + 1 by omega] at h
      cases d2 with
      | nil => simp at h
      | cons y ys =>
        simp only [List.take_succ_cons, List.cons.injEq] at h
        obtain ⟨hxy, hrest⟩ := h
        subst hxy
        obtain ⟨h1, h2⟩ := ih ys hrest
        simp [List.takeWhile_cons, List.dropWhile_cons, hx, h1, h2]
    · have hx' : P x = false := by simpa using hx
      have htw : (x :: xs).takeWhile P = [] := by simp [List.takeWhile_cons, hx']
      have hdw : (x :: xs).dropWhile P = x :: xs := by simp [List.dropWhile_cons, hx']
      rw [htw, hdw]
      rw [htw] at h
      simp only [List.length_nil, Nat.zero_add] at h
      obtain ⟨n', rfl⟩ : ∃ n', n = n' + 1 := ⟨n - 1, by omega⟩
      cases d2 with
      | nil => simp at h
      | cons y ys =>
        have hxy : x = y := by
          simp only [List.take_succ_cons, List.cons.injEq] at h
          exact h.1
        subst hxy
        have htw2 : (x :: ys).takeWhile P = [] := by simp [List.takeWhile_cons, hx']
        have hdw2 : (x :: ys).dropWhile P = x :: ys := by simp [List.dropWhile_cons, hx']
        rw [htw2, hdw2]
        exact ⟨rfl, h⟩

/-- C15, as amended: the outcome of the match is decided by the bytes that the
pattern can reach: `GET /`, the bytes other than a space that follow, and the 7 bytes
after them.  Two buffers that agree on that many leading bytes have the same outcome,
both no match or both the same captured path; what comes after is never read.  A line
terminator does not end that prefix. -/
theorem match_request_line_prefix (buffer buffer2 : List Nat)
    (h : (cstr buffer).take (decisive_length (cstr buffer))
        = (cstr buffer2).take (decisive_length (cstr buffer))) :
    match_request_line buffer = match_request_line buffer2 := by
  unfold decisive_length at h
  rw [match_request_line_eq_ite buffer, match_request_line_eq_ite buffer2]
  generalize cstr buffer = c at h ⊢
  generalize cstr buffer2 = c2 at h ⊢
  generalize hk : ((c.drop 5).takeWhile (fun x => x != 32)).length = k at h
  have h5 : c.take 5 = c2.take 5 := by
    have := congrArg (List.take 5) h
    rw [List.take_take, List.take_take] at this
    rwa [show min 5 (5 + k + 7) = 5 by omega] at this
  have hd : (c.drop 5).take (k + 7) = (c2.drop 5).take (k + 7) := by
    have := congrArg (List.drop 5) h
    rw [List.drop_take, List.drop_take] at this
    rwa [show 5 + k + 7 - 5 = k + 7 by omega] at this
  rw [← hk] at hd
  obtain ⟨h1, h2⟩ := takeWhile_of_take_eq (fun x => x != 32) 7 (by decide) _ _ hd
  rw [h5, h1, h2]

theorem match_request_line_prefix_witness :
    (cstr (bytes "GET /index.html HTTP/1.1\r\nHost: a\r\n\r\n")).take
        (decisive_length (cstr (bytes "GET /index.html HTTP/1.1\r\nHost: a\r\n\r\n")))
      = (cstr (bytes "GET /index.html HTTP/1.0\r\nAccept: text/html\r\n\r\n")).take
        (decisive_length (cstr (bytes "GET /index.html HTTP/1.1\r\nHost: a\r\n\r\n")))
      ∧ match_request_line (bytes "GET /index.html HTTP/1.1\r\nHost: a\r\n\r\n")
        = match_request_line (bytes "GET /index.html HTTP/1.0\r\nAccept: text/html\r\n\r\n") :=
  ⟨by decide, match_request_line_prefix
    (bytes "GET /index.html HTTP/1.1\r\nHost: a\r\n\r\n")
    (bytes "GET /index.html HTTP/1.0\r\nAccept: text/html\r\n\r\n") (by decide)⟩

/-- C15, as stated, fails: the two buffers below have the same first line,
`GET /a` and its terminator, and differ after it; the first one matches, with a path
that runs over the line terminator, and the second one does not. -/
theorem match_request_line_reads_past_first_line :
    first_line (bytes "GET /a\r\nb HTTP/1.1\r\n\r\n") = bytes "GET /a\r\n"
      ∧ first_line (bytes "GET /a\r\nHost: b\r\n\r\n") = bytes "GET /a\r\n"
      ∧ match_request_line (bytes "GET /a\r\nb HTTP/1.1\r\n\r\n") = some (bytes "a\r\nb")
      ∧ match_request_line (bytes "GET /a\r\nHost: b\r\n\r\n") = none := by
  decide

/-! ## `url_decode`: malformed escapes and escapes at the end (C2, C9) -/

/-- C2 fails on malformed escapes, where `url_decode` does not check what `sscanf`
found: in `"%zz1"` the conversion stores nothing and the byte emitted is the
indeterminate content of `hexadecimal_value`; in `"%\t41"` the conversion skips the
tab and reads `41`, so `A` is emitted from `s[i+2]`, `s[i+3]` and `1` is then copied
again. -/
theorem url_decode_malformed_escape :
    sscanf_2x (bytes "zz1") = none
      ∧ (∀ uninit : Nat → Nat, url_decode uninit (bytes "%zz1") = [uninit 0 % 256, 49])
      ∧ url_decode (fun _ => 0) (bytes "%zz1") ≠ url_decode (fun _ => 1) (bytes "%zz1")
      ∧ url_decode (fun _ => 0) (bytes "%\t41") = bytes "A1"
      ∧ url_decode (fun _ => 0) (bytes "%\t41")
          ≠ reference_decode two_digit_hex (bytes "%\t41") := by
  refine ⟨by decide, ?_, by decide, by decide, by decide⟩
  intro uninit
  rfl

theorem url_decode_loop_of_state (uninit : Nat → Nat) (source : List Nat) (fuel i : Nat)
    (decoded : List Nat) (hfuel : source.length ≤ i + fuel) :
    ∀ st ∈ url_decode_states uninit source fuel i decoded,
      url_decode_loop uninit source fuel i decoded
        = st.2 ++ decode_from uninit st.1 (source.drop st.1) := by
  induction fuel generalizing i decoded with
  | zero =>
    intro st hst
    simp only [url_decode_states, List.mem_singleton] at hst
    subst hst
    exact url_decode_loop_eq uninit source 0 i decoded hfuel
  | succ fuel ih =>
    intro st hst
    unfold url_decode_states at hst
    rcases List.mem_cons.mp hst with h | h
    · subst h
      exact url_decode_loop_eq uninit source (fuel + 1) i decoded hfuel
    · unfold url_decode_loop
      by_cases hlt : i < source.length
      · rw [if_pos hlt] at h
        rw [if_pos hlt]
        by_cases hc : source.getD i 0 = 37 ∧ i + 2 < source.length
        · rw [if_pos hc] at h
          rw [if_pos hc]
          exact ih (i + 2 + 1) _ (by omega) st h
        · rw [if_neg hc] at h
          rw [if_neg hc]
          exact ih (i + 1) _ (by omega) st h
      · rw [if_neg hlt] at h
        simp at h

/-- C9, as amended: take a `%` that the scan of `url_decode` reaches, that is, one
that is not among the two bytes consumed by an earlier escape.  If its escape would
run off the end of the string (fewer than two bytes follow the `%`), it is not
decoded: the `%` and what follows it are copied literally after what was decoded so
far.  If its escape touches the very end (the last byte of `%XY` is the last byte of
the string), it is decoded: for hexadecimal digits `X`, `Y` the one byte `16 * X + Y`
is emitted. -/
theorem url_decode_escape_reached (uninit : Nat → Nat) (s s2 : List Nat)
    (st st2 : Nat × List Nat) (vx vy : Nat)
    (hst : st ∈ url_decode_states uninit s s.length 0 [])
    (h37 : s.getD st.1 0 = 37) (hlt : st.1 < s.length) (hoff : s.length ≤ st.1 + 2)
    (hst2 : st2 ∈ url_decode_states uninit s2 s2.length 0 [])
    (h37' : s2.getD st2.1 0 = 37) (hend : st2.1 + 3 = s2.length)
    (hx : hex_digit (s2.getD (st2.1 + 1) 0) = some vx)
    (hy : hex_digit (s2.getD (st2.1 + 2) 0) = some vy) :
    url_decode uninit s = st.2 ++ 37 :: s.drop (st.1 + 1)
      ∧ url_decode uninit s2 = st2.2 ++ [16 * vx + vy] := by
  constructor
  · have h := url_decode_loop_of_state uninit s s.length 0 [] (by omega) st hst
    have hd : s.drop st.1 = 37 :: s.drop (st.1 + 1) := by
      rw [← h37, List.getD_eq_getElem _ _ hlt]
      exact List.drop_eq_getElem_cons hlt
    unfold url_decode
    rw [h, decode_from_short uninit st.1 (s.drop st.1) (by rw [List.length_drop]; omega), hd]
  · have h := url_decode_loop_of_state uninit s2 s2.length 0 [] (by omega) st2 hst2
    obtain ⟨hvx, _⟩ := hex_digit_some _ vx hx
    obtain ⟨hvy, _⟩ := hex_digit_some _ vy hy
    have h0 : s2.drop st2.1 = s2.getD st2.1 0 :: s2.drop (st2.1 + 1) := by
      rw [List.getD_eq_getElem _ _ (by omega)]
      exact List.drop_eq_getElem_cons (by omega)
    have h1 : s2.drop (st2.1 + 1) = s2.getD (st2.1 + 1) 0 :: s2.drop (st2.1 + 1 + 1) := by
      rw [List.getD_eq_getElem _ _ (by omega)]
      exact List.drop_eq_getElem_cons (by omega)
    have h2 : s2.drop (st2.1 + 1 + 1) = s2.getD (st2.1 + 2) 0 :: s2.drop (st2.1 + 2 + 1) := by
      rw [List.getD_eq_getElem _ _ (by omega)]
      exact List.drop_eq_getElem_cons (by omega)
    have h3 : s2.drop (st2.1 + 2 + 1) = [] := List.drop_eq_nil_of_le (by omega)
    unfold url_decode
    rw [h, h0, h1, h2, h3, h37']
    generalize s2.getD (st2.1 + 1) 0 = x at hx ⊢
    generalize s2.getD (st2.1 + 2) 0 = y at hy ⊢
    simp only [decode_from, if_true, sscanf_2x_hex x y vx vy [] hx hy, Option.getD_some]
    congr 2
    omega

theorem url_decode_escape_reached_witness :
    (5, bytes "a b") ∈ url_decode_states (fun _ => 0) (bytes "a%20b%2") (bytes "a%20b%2").length 0 []
      ∧ (bytes "a%20b%2").getD 5 0 = 37 ∧ 5 < (bytes "a%20b%2").length
      ∧ (bytes "a%20b%2").length ≤ 5 + 2
      ∧ (5, bytes "a b") ∈ url_decode_states (fun _ => 0) (bytes "a%20b%2F")
          (bytes "a%20b%2F").length 0 []
      ∧ (bytes "a%20b%2F").getD 5 0 = 37 ∧ 5 + 3 = (bytes "a%20b%2F").length
      ∧ hex_digit ((bytes "a%20b%2F").getD (5 + 1) 0) = some 2
      ∧ hex_digit ((bytes "a%20b%2F").getD (5 + 2) 0) = some 15
      ∧ (url_decode (fun _ => 0) (bytes "a%20b%2")
          = bytes "a b" ++ 37 :: (bytes "a%20b%2").drop (5 + 1)
        ∧ url_decode (fun _ => 0) (bytes "a%20b%2F") = bytes "a b" ++ [16 * 2 + 15]) :=
  ⟨by decide, by decide, by decide, by decide, by decide, by decide, by decide, by decide,
    by decide,
    url_decode_escape_reached (fun _ => 0) (bytes "a%20b%2") (bytes "a%20b%2F")
      (5, bytes "a b") (5, bytes "a b") 2 15
      (by decide) (by decide) (by decide) (by decide) (by decide) (by decide) (by decide)
      (by decide) (by decide)⟩

end HttpServer
